import Mathlib

/-!
Shallow embedding of `bitradius/typescript-ip` (src/src/index.ts).

Strings are modelled as `List Char`; Node `Buffer`s as `List Nat` (one entry
per octet).  Fallible operations (JS `throw`) return `Option`.  Each
definition below mirrors one function (or one JS primitive used by the
source) and is named after it.
-/

namespace TsIp

/-- JS strings, modelled as lists of characters. -/
abbrev Str := List Char

/-- Coerce a Lean string literal into the model. -/
def str (s : String) : Str := s.toList

/-- JS `String.prototype.split(sep)` for a one-character separator:
`""` splits to `[""]`, adjacent separators produce empty components. -/
def splitOnChar (sep : Char) : Str → List Str
  | [] => [[]]
  | c :: rest =>
    match splitOnChar sep rest with
    | [] => [[c]]
    | g :: gs => if c = sep then [] :: g :: gs else (c :: g) :: gs

/-- JS `Array.prototype.join(sep)` for a one-character separator. -/
def joinSep (sep : Char) : List Str → Str
  | [] => []
  | [g] => g
  | g :: gs => g ++ sep :: joinSep sep gs

/-- JS `String.prototype.padStart(n, c)`. -/
def padStart (n : Nat) (c : Char) (s : Str) : Str :=
  List.replicate (n - s.length) c ++ s

/-- Boolean prefix test on character lists. -/
def isPrefixOfChars : Str → Str → Bool
  | [], _ => true
  | _ :: _, [] => false
  | a :: as, b :: bs => a = b && isPrefixOfChars as bs

/-- JS `String.prototype.indexOf(pat)`: position of the first occurrence of
`pat` in `s` (`none` models `-1`). -/
def firstOccur (pat : Str) : Str → Option Nat
  | [] => if isPrefixOfChars pat [] then some 0 else none
  | c :: rest =>
    if isPrefixOfChars pat (c :: rest) then some 0
    else (firstOccur pat rest).map (· + 1)

/-- JS `String.prototype.replace(pat, '')` for a plain-string pattern:
remove the first occurrence of `pat`, if any. -/
def replaceOnce (pat : Str) (s : Str) : Str :=
  match firstOccur pat s with
  | some i => s.take i ++ s.drop (i + pat.length)
  | none => s

/-- JS `String.prototype.replace(/pat/g, rep)` for a plain nonempty string
pattern: repeatedly remove the leftmost occurrence, scanning left to right
without revisiting the replacement text.  Fueled by the string length. -/
def replaceAllCore (pat rep : Str) : Nat → Str → Str
  | 0, s => s
  | fuel + 1, s =>
    match firstOccur pat s with
    | none => s
    | some i => s.take i ++ rep ++ replaceAllCore pat rep fuel (s.drop (i + pat.length))

def replaceAll (pat rep : Str) (s : Str) : Str :=
  replaceAllCore pat rep s.length s

/-- Decimal digit test (`[0-9]`, character codes 48–57). -/
def isDigitCh (c : Char) : Bool := 48 ≤ c.toNat && c.toNat ≤ 57

/-- Hexadecimal digit value, as accepted by Node hex decoding and
`parseInt(_, 16)`: `0-9`, `a-f`, `A-F` (written via the character codes
48–57, 97–102 and 65–70). -/
def hexVal? (c : Char) : Option Nat :=
  let n := c.toNat
  if 48 ≤ n ∧ n ≤ 57 then some (n - 48)
  else if 97 ≤ n ∧ n ≤ 102 then some (n - 87)
  else if 65 ≤ n ∧ n ≤ 70 then some (n - 55)
  else none

/-- Lowercase hex digit character for a value `0 ≤ n < 16`
(JS `Number.prototype.toString(16)` digit alphabet: code 48 + n for digits,
code 87 + n for the letters `a`–`f`). -/
def hexDigitChar (n : Nat) : Char :=
  Char.ofNat (if n < 10 then 48 + n else 87 + n)

/-- Digit-extraction loop for base-16 rendering, structurally recursive on
a fuel bound (any fuel at least the value gives the mathematical result;
see `natToHex_eq`). -/
def natToHexCore : Nat → Nat → Str
  | 0, n => [hexDigitChar n]
  | fuel + 1, n =>
    if n < 16 then [hexDigitChar n]
    else natToHexCore fuel (n / 16) ++ [hexDigitChar (n % 16)]

/-- JS `BigInteger.toString(16)` for a non-negative value: lowercase hex
digits, no leading zeros, `"0"` for zero. -/
def natToHex (n : Nat) : Str := natToHexCore n n

/-- Value of a hex string under `BigInteger(s, 16)`; on the (always valid)
hex strings this program produces, base-16 positional value. -/
def hexStrToNat (s : Str) : Nat :=
  s.foldl (fun acc c => 16 * acc + (hexVal? c).getD 0) 0

/-- JS `parseInt(s, 16)` restricted to the shapes this program feeds it
(no sign, no `0x` prefix, no leading whitespace — the inputs are fragments
of this library's own lowercase hex output): value of the longest leading
run of hex digits, `none` modelling `NaN` when there is none. -/
def parseIntHex (s : Str) : Option Nat :=
  let ds := s.takeWhile (fun c => (hexVal? c).isSome)
  if ds = [] then none else some (hexStrToNat ds)

/-- JS `parseInt(s, 10)`: optional sign then longest leading digit run;
`none` models `NaN`. -/
def parseIntDec (s : Str) : Option Int :=
  let core : Str → Option Int := fun t =>
    let ds := t.takeWhile isDigitCh
    if ds = [] then none
    else some (Int.ofNat (ds.foldl (fun acc c => 10 * acc + (c.toNat - 48)) 0))
  match s with
  | '-' :: rest => (core rest).map (- ·)
  | '+' :: rest => core rest
  | _ => core s

/-- `x.toString(16)` applied to a JS number that may be `NaN`
(`parseIntHex` result): `NaN` prints as `"NaN"`. -/
def jsHexToString : Option Nat → Str
  | some n => natToHex n
  | none => str "NaN"

/-- Node `Buffer.from(s, 'hex')`: decode two characters per octet, stop at
the first invalid character, drop a trailing unpaired character. -/
def bufferFromHex : Str → List Nat
  | c1 :: c2 :: rest =>
    match hexVal? c1, hexVal? c2 with
    | some h, some l => (16 * h + l) :: bufferFromHex rest
    | _, _ => []
  | _ => []

/-- Node `Buffer.prototype.toString('hex')`: two lowercase digits per octet. -/
def byteToHex (b : Nat) : Str := [hexDigitChar (b / 16 % 16), hexDigitChar (b % 16)]

def bytesToHex (bs : List Nat) : Str := bs.flatMap byteToHex

/-- `hex.match(/[0-9a-f]{4}/g)` on the all-hex-digit output of
`toString('hex')`: consecutive groups of four characters, any remainder of
fewer than four dropped ([] models the `null` no-match result). -/
def chunks4 : Str → List Str
  | a :: b :: c :: d :: rest => [a, b, c, d] :: chunks4 rest
  | _ => []

/-- Un-anchored test of `/[0-9]{1,3}\.[0-9]{1,3}\.[0-9]{1,3}\.[0-9]{1,3}/`
at one start position: some choice of group lengths 1–3 matches here. -/
def v4MatchAt (s : Str) : Bool :=
  let grp : Str → Nat → Option Str := fun t k =>
    if (t.take k).length = k && (t.take k).all isDigitCh then some (t.drop k) else none
  let dot : Str → Option Str := fun t =>
    match t with
    | '.' :: rest => some rest
    | _ => none
  let lens : List Nat := [1, 2, 3]
  lens.any fun k1 =>
    match grp s k1 >>= dot with
    | none => false
    | some s1 => lens.any fun k2 =>
      match grp s1 k2 >>= dot with
      | none => false
      | some s2 => lens.any fun k3 =>
        match grp s2 k3 >>= dot with
        | none => false
        | some s3 => lens.any fun k4 => (grp s3 k4).isSome

end TsIp

namespace TsIp

/-- First index of a character (JS `String.prototype.indexOf` for a
character known to be present). -/
def indexOfChar (c : Char) : Str → Nat
  | [] => 0
  | a :: rest => if a = c then 0 else indexOfChar c rest + 1

/-- Digit-extraction loop for base-10 rendering, structurally recursive on
a fuel bound. -/
def natToDecCore : Nat → Nat → Str
  | 0, n => [Char.ofNat ('0'.toNat + n)]
  | fuel + 1, n =>
    if n < 10 then [Char.ofNat ('0'.toNat + n)]
    else natToDecCore fuel (n / 10) ++ [Char.ofNat ('0'.toNat + n % 10)]

/-- JS `Number.prototype.toString()` (base 10) for a non-negative value. -/
def natToDec (n : Nat) : Str := natToDecCore n n

/-- JS `ToUint8` coercion applied by `Buffer.from(number[])`:
`NaN` becomes `0`, other values are reduced modulo 256. -/
def jsToUint8 : Option Int → Nat
  | none => 0
  | some i => (i % 256).toNat

/-- `const mappedV4Prefix = Buffer.from('00000000000000000000ffff', 'hex')`. -/
def mappedV4Prefix : List Nat := bufferFromHex (str "00000000000000000000ffff")

/-- The `IP` class state: `m_bytes` buffer, `m_isV4` flag, optional
`m_zone` (RFC6874 zone string; JS can also store the falsy `''`). -/
structure IP where
  m_bytes : List Nat
  m_isV4 : Bool
  m_zone : Option Str
deriving DecidableEq, Repr

/-- `new IP()`: `Buffer.alloc(16)`, `m_isV4 = false`, no zone. -/
def IP.new : IP := ⟨List.replicate 16 0, false, none⟩

/-- `IP.isIPv4`: un-anchored test of
`/[0-9]{1,3}\.[0-9]{1,3}\.[0-9]{1,3}\.[0-9]{1,3}/` — some suffix of the
string matches the pattern at its start. -/
def isIPv4 (ip : Str) : Bool := ip.tails.any v4MatchAt

/-- `IP.isIPv6`: un-anchored test of `/[0-9a-f:%]+/` — the string contains
at least one character of the class. -/
def isIPv6 (ip : Str) : Bool :=
  ip.any fun c => isDigitCh c || ('a' ≤ c && c ≤ 'f') || c = ':' || c = '%'

/-- `IP.v4StringToBuffer`: split on `.`, `parseInt` each component,
coerce to octets (`Buffer.from`), then write into a zeroed 16-byte buffer
holding the mapped prefix: the first four source octets go to offset 12. -/
def v4StringToBuffer (ip : Str) : List Nat :=
  let bytes := (splitOnChar '.' ip).map fun octet => jsToUint8 (parseIntDec octet)
  mappedV4Prefix ++ (bytes.take 4 ++ List.replicate (4 - (bytes.take 4).length) 0)

/-- `IP.expandV6`: split on `:`, drop one leading empty component for a
leading `::`, pad non-empty components to four digits, and replace each
empty component by `8 - octets.length + 1` `"0000"` components (a JS
signed computation: non-positive counts insert nothing). -/
def expandV6 (address : Str) : Str :=
  let octets := splitOnChar ':' address
  let octets := if isPrefixOfChars (str "::") address then octets.drop 1 else octets
  let tmp := octets.flatMap fun octet =>
    if octet.length ≠ 0 then [padStart 4 '0' octet]
    else List.replicate ((8 - (octets.length : Int) + 1).toNat) (str "0000")
  joinSep ':' tmp

/-- `ip.split(':').join('')` — remove every colon. -/
def stripColons (s : Str) : Str := (splitOnChar ':' s).flatten

/-- `IP.v6StringToBuffer`: split off at most one `%zone` (two or more `%`
is an error), expand, strip colons, hex-decode. -/
def v6StringToBuffer (ip : Str) : Option (List Nat × Option Str) :=
  let zoneSplit : Option (Str × Option Str) :=
    if ip.contains '%' then
      match splitOnChar '%' ip with
      | [p0, p1] => some (p0, some p1)
      | _ => none
    else some (ip, none)
  zoneSplit.map fun p => (bufferFromHex (stripColons (expandV6 p.1)), p.2)

/-- One textual zero-run pattern: `zeros.join(':')` for the shrinking
`zeros` array of `compressV6`, at length `L`. -/
def zerosRun (L : Nat) : Str := joinSep ':' (List.replicate L (str "0000"))

/-- The `while (zeros.length > 1)` loop of `compressV6`: try the pattern at
the current `zeros.length`, replace its first occurrence and stop, else pop
one `"0000"` and continue; the loop exits at length 1. -/
def compressLoop (address : Str) : Nat → Str
  | 0 => address
  | 1 => address
  | L + 2 =>
    if (firstOccur (zerosRun (L + 2)) address).isSome
    then replaceOnce (zerosRun (L + 2)) address
    else compressLoop address (L + 1)

/-- The tail of `compressV6` after the loop: double a leading colon, turn a
fully-emptied string into `"::"`, then strip leading zeros of each
component (`null`, i.e. the empty component, joins as the empty string). -/
def compressFinish (address : Str) : Str :=
  let address :=
    if address.head? = some ':' then ':' :: address
    else if address.length = 0 then str "::" else address
  joinSep ':' ((splitOnChar ':' address).map fun octet =>
    if octet ≠ [] then jsHexToString (parseIntHex octet) else [])

/-- `IP.compressV6`. -/
def compressV6 (address : Str) : Str := compressFinish (compressLoop address 8)

/-- `IP.v6ToString`: hex-encode the buffer, group into four-digit hextets
(`match` returning no groups is the error case), then either compress or
render each hextet without leading zeros (the final
`replace(/0000/g, '0')` of the source included). -/
def v6ToString (bytes : List Nat) (expanded : Bool) : Option Str :=
  let octets := chunks4 (bytesToHex bytes)
  if octets = [] then none
  else if !expanded then some (compressV6 (joinSep ':' octets))
  else some (replaceAll (str "0000") (str "0")
    (joinSep ':' (octets.map fun octet => jsHexToString (parseIntHex octet))))

/-- `IP.v4ToString`: dotted decimal from bytes 12–15, or the expanded v6
rendering when `mapped` is requested. -/
def v4ToString (bytes : List Nat) (mapped : Bool) : Option Str :=
  if !mapped then some (joinSep '.' ((bytes.drop 12).map natToDec))
  else v6ToString bytes true

/-- The bracket stripping at the top of `IP.parse`. -/
def stripBrackets (address : Str) : Str :=
  if address.head? = some '[' ∧ address.getLast? = some ']'
  then (address.drop 1).dropLast else address

/-- `IP.parse`. -/
def parse (address : Str) : Option IP :=
  let address := stripBrackets address
  if address = str "::" then some IP.new
  else if isIPv4 address then
    some { m_bytes := v4StringToBuffer address, m_isV4 := true, m_zone := none }
  else if isIPv6 address then
    (v6StringToBuffer address).map fun p =>
      { m_bytes := p.1
        m_isV4 := decide (p.1.head? = some 0 ∧ p.1.take 12 = mappedV4Prefix)
        m_zone := p.2 }
  else none

/-- `IP.fromDecimal`: hex-encode the value, left-pad to 32 digits, decode
to bytes; substitute the mapped prefix when the top 12 bytes are zero and
v6 is not forced. -/
def fromDecimal (decimal : Nat) (forceV6 : Bool) : IP :=
  let bytes := bufferFromHex (padStart 32 '0' (natToHex decimal))
  if forceV6 = false ∧ bytes.take 12 = List.replicate 12 0 then
    { m_bytes := mappedV4Prefix ++ bytes.drop 12, m_isV4 := true, m_zone := none }
  else
    { m_bytes := bytes, m_isV4 := false, m_zone := none }

/-- The `decimal` getter: base-16 value of the hex rendering of the last
four bytes (v4) or of the whole buffer (v6). -/
def IP.decimal (ip : IP) : Nat :=
  if ip.m_isV4 then hexStrToNat (bytesToHex (ip.m_bytes.drop 12))
  else hexStrToNat (bytesToHex ip.m_bytes)

/-- The `toString(encoding?)` argument. -/
inductive Encoding
  | mapped
  | expanded
deriving DecidableEq, Repr

/-- `IP.prototype.toString`: v4 rendering (dotted, or expanded-v6 under
`mapped`), or v6 rendering with the zone re-attached when it is set and
non-empty (the falsy `''` zone is not appended). -/
def IP.jsToString (ip : IP) (encoding : Option Encoding) : Option Str :=
  if ip.m_isV4 then v4ToString ip.m_bytes (encoding = some .mapped)
  else
    match ip.m_zone with
    | none => v6ToString ip.m_bytes (encoding = some .expanded)
    | some z =>
      if z = [] then v6ToString ip.m_bytes (encoding = some .expanded)
      else (v6ToString ip.m_bytes (encoding = some .expanded)).map (· ++ '%' :: z)

/-- `IP.splitHostPort`: the port is `none` when JS would produce `NaN`. -/
def splitHostPort (host : Str) : Option (Str × Option Int) :=
  if host.contains '.' then
    match splitOnChar ':' host with
    | [p0, p1] => some (p0, parseIntDec p1)
    | parts => some (parts.headD [], some 0)
  else if host.contains '[' ∧ host.contains ']' then
    let cut := indexOfChar ']' host + 1
    let bracketHost := host.take cut
    let right := host.drop cut
    if right.length = 0 then some (bracketHost, some 0)
    else
      match splitOnChar ':' right with
      | [_, p1] => some (bracketHost, parseIntDec (if p1 = [] then str "0" else p1))
      | _ => none
  else none

end TsIp

namespace TsIp

/-- Big-endian value of a byte buffer (the number its `toString('hex')`
denotes in base 16). -/
def bytesToNat (bs : List Nat) : Nat := bs.foldl (fun acc b => 256 * acc + b) 0

/-- The eight 16-bit hextets of a byte buffer, two bytes each. -/
def hextetsOf : List Nat → List Nat
  | a :: b :: rest => (256 * a + b) :: hextetsOf rest
  | _ => []

/-- A hextet as its four-digit lowercase hex text. -/
def toHex4 (h : Nat) : Str := padStart 4 '0' (natToHex h)

/-- The hextet list has a run of `L` consecutive zero hextets starting at
index `i`. -/
def zeroRunAt (hx : List Nat) (i L : Nat) : Prop :=
  (hx.drop i).take L = List.replicate L 0

instance (hx : List Nat) (i L : Nat) : Decidable (zeroRunAt hx i L) := by
  unfold zeroRunAt; infer_instance

/-- Some run of `L` consecutive zero hextets exists. -/
def hasZeroRun (hx : List Nat) (L : Nat) : Bool :=
  (List.range (hx.length + 1)).any fun i => decide (zeroRunAt hx i L)

/-- Length of the longest run of consecutive zero hextets. -/
def maxZeroRun (hx : List Nat) : Nat :=
  Nat.findGreatest (fun L => hasZeroRun hx L = true) hx.length

/-- Start index of the leftmost run of `L` consecutive zero hextets. -/
def leftmostRunStart (hx : List Nat) (L : Nat) : Nat :=
  (((List.range (hx.length + 1)).find? fun i => decide (zeroRunAt hx i L))).getD 0

/-- The colon-joined hextet text with the run of blocks `i ≤ j < i + L`
textually deleted together with its interior separators — exactly the
string the `compressV6` replacement produces when it elides that run. -/
def elideRun (blocks : List Str) (i L : Nat) : Str :=
  (if i = 0 then [] else joinSep ':' (blocks.take i) ++ [':']) ++
  (if i + L = blocks.length then [] else ':' :: joinSep ':' (blocks.drop (i + L)))

end TsIp

namespace TsIp

theorem isPrefixOfChars_iff {p s : Str} : isPrefixOfChars p s = true ↔ p <+: s := by
  induction p generalizing s with
  | nil => simp [isPrefixOfChars]
  | cons a as ih =>
    cases s with
    | nil => simp [isPrefixOfChars]
    | cons b bs => simp [isPrefixOfChars, List.cons_prefix_cons, ih, and_comm]

theorem isPrefixOfChars_false_of_length {p s : Str} (h : s.length < p.length) :
    isPrefixOfChars p s = false := by
  rcases Bool.eq_false_or_eq_true (isPrefixOfChars p s) with h' | h'
  · exact absurd (isPrefixOfChars_iff.1 h').length_le (by omega)
  · exact h'

theorem isPrefixOfChars_false_of_not {p s : Str} (h : ¬ isPrefixOfChars p s = true) :
    isPrefixOfChars p s = false := by simpa using h

theorem prefix_append_iff {x y p s : Str} (hlen : x.length = y.length) :
    (x ++ p <+: y ++ s) ↔ x = y ∧ p <+: s := by
  induction x generalizing y with
  | nil =>
    cases y with
    | nil => simp
    | cons b bs => simp at hlen
  | cons a as ih =>
    cases y with
    | nil => simp at hlen
    | cons b bs =>
      simp only [List.cons_append, List.cons_prefix_cons, List.cons.injEq]
      rw [ih (by simpa using hlen)]
      tauto

theorem firstOccur_eq_some_iff {pat s : Str} {q : Nat} :
    firstOccur pat s = some q ↔
      (isPrefixOfChars pat (List.drop q s) = true ∧
        ∀ r < q, isPrefixOfChars pat (List.drop r s) = false) := by
  induction s generalizing q with
  | nil =>
    simp only [firstOccur, List.drop_nil]
    by_cases h : isPrefixOfChars pat [] = true
    · rw [if_pos h]
      constructor
      · rintro h'
        injection h' with h'
        subst h'
        exact ⟨h, fun r hr => absurd hr (Nat.not_lt_zero r)⟩
      · rintro ⟨-, hall⟩
        rcases Nat.eq_zero_or_pos q with rfl | hq
        · rfl
        · exact absurd (hall 0 hq) (by simp [h, isPrefixOfChars_false_of_not])
    · rw [if_neg h]
      constructor
      · rintro ⟨⟩
      · rintro ⟨h', -⟩
        exact absurd h' h
  | cons c rest ih =>
    by_cases h : isPrefixOfChars pat (c :: rest) = true
    · simp only [firstOccur]
      rw [if_pos h]
      constructor
      · rintro h'
        injection h' with h'
        subst h'
        exact ⟨h, fun r hr => absurd hr (Nat.not_lt_zero r)⟩
      · rintro ⟨-, hall⟩
        rcases Nat.eq_zero_or_pos q with rfl | hq
        · rfl
        · have h0 := hall 0 hq
          rw [List.drop_zero] at h0
          exact absurd h (by simp [h0])
    · simp only [firstOccur]
      rw [if_neg h]
      constructor
      · intro h'
        rcases Option.map_eq_some'.1 h' with ⟨a, hfo, ha⟩
        subst ha
        have hr := ih.1 hfo
        refine ⟨by simpa using hr.1, fun r hlt => ?_⟩
        cases r with
        | zero => simpa using isPrefixOfChars_false_of_not h
        | succ r' => simpa using hr.2 r' (by omega)
      · rintro ⟨hq, hall⟩
        rcases Nat.eq_zero_or_pos q with rfl | hpos
        · exact absurd (by simpa using hq) h
        · obtain ⟨q', rfl⟩ : ∃ q', q = q' + 1 := ⟨q - 1, by omega⟩
          have hfo : firstOccur pat rest = some q' :=
            ih.2 ⟨by simpa using hq, fun r hr => by simpa using hall (r + 1) (by omega)⟩
          simp [hfo]

theorem firstOccur_eq_none_iff {pat s : Str} :
    firstOccur pat s = none ↔ ∀ q, isPrefixOfChars pat (List.drop q s) = false := by
  induction s with
  | nil =>
    simp only [firstOccur, List.drop_nil]
    by_cases h : isPrefixOfChars pat [] = true
    · rw [if_pos h]
      constructor
      · rintro ⟨⟩
      · intro hall
        exact absurd h (by simp [hall 0])
    · rw [if_neg h]
      exact iff_of_true rfl fun q => isPrefixOfChars_false_of_not h
  | cons c rest ih =>
    by_cases h : isPrefixOfChars pat (c :: rest) = true
    · simp only [firstOccur]
      rw [if_pos h]
      constructor
      · rintro ⟨⟩
      · intro hall
        exact absurd h (by simpa using hall 0)
    · simp only [firstOccur]
      rw [if_neg h, Option.map_eq_none', ih]
      constructor
      · intro hall q
        cases q with
        | zero => simpa using isPrefixOfChars_false_of_not h
        | succ q' => simpa using hall q'
      · intro hall q
        simpa using hall (q + 1)

end TsIp

namespace TsIp

theorem hexVal?_lt {c : Char} {v : Nat} (h : hexVal? c = some v) : v < 16 := by
  unfold hexVal? at h
  dsimp only at h
  split_ifs at h with h1 h2 h3 <;>
    (injection h with h; omega)

theorem hexVal?_hexDigitChar : ∀ n, n < 16 → hexVal? (hexDigitChar n) = some n := by decide

theorem hexDigitChar_ne_colon : ∀ n, n < 16 → hexDigitChar n ≠ ':' := by decide

theorem hexFold_acc (s : Str) (a : Nat) :
    s.foldl (fun acc c => 16 * acc + (hexVal? c).getD 0) a
      = a * 16 ^ s.length + hexStrToNat s := by
  induction s generalizing a with
  | nil => simp [hexStrToNat]
  | cons c cs ih =>
    show List.foldl _ (16 * a + (hexVal? c).getD 0) cs = _
    rw [ih]
    have : hexStrToNat (c :: cs) = (16 * 0 + (hexVal? c).getD 0) * 16 ^ cs.length + hexStrToNat cs := by
      show List.foldl _ (16 * 0 + (hexVal? c).getD 0) cs = _
      rw [ih]
    rw [this]
    simp [List.length_cons]
    ring

theorem hexStrToNat_append (s t : Str) :
    hexStrToNat (s ++ t) = hexStrToNat s * 16 ^ t.length + hexStrToNat t := by
  show List.foldl _ 0 (s ++ t) = _
  rw [List.foldl_append]
  exact hexFold_acc t _

theorem natToHexCore_fuel_irrel : ∀ (n f1 f2 : Nat), n ≤ f1 → n ≤ f2 →
    natToHexCore f1 n = natToHexCore f2 n := by
  intro n
  induction n using Nat.strong_induction_on with
  | _ n ih =>
    intro f1 f2 h1 h2
    match f1, f2 with
    | 0, 0 => rfl
    | 0, f2 + 1 =>
      have hn : n = 0 := by omega
      subst hn
      simp [natToHexCore]
    | f1 + 1, 0 =>
      have hn : n = 0 := by omega
      subst hn
      simp [natToHexCore]
    | f1 + 1, f2 + 1 =>
      show (if n < 16 then _ else _) = (if n < 16 then _ else _)
      split_ifs with h16
      · rfl
      · have hdiv : n / 16 < n := Nat.div_lt_self (by omega) (by norm_num)
        rw [ih (n / 16) hdiv f1 f2 (by omega) (by omega)]

theorem natToHex_eq (n : Nat) :
    natToHex n = if n < 16 then [hexDigitChar n]
      else natToHex (n / 16) ++ [hexDigitChar (n % 16)] := by
  cases n with
  | zero => rfl
  | succ m =>
    show (if m + 1 < 16 then _ else natToHexCore m ((m + 1) / 16) ++ _) = _
    split_ifs with h16
    · rfl
    · rw [natToHexCore_fuel_irrel ((m + 1) / 16) m ((m + 1) / 16) (by omega) (le_refl _)]
      rfl

theorem hexStrToNat_natToHex (n : Nat) : hexStrToNat (natToHex n) = n := by
  induction n using Nat.strong_induction_on with
  | _ n ih =>
    rw [natToHex_eq]
    split_ifs with h
    · simp [hexStrToNat, hexVal?_hexDigitChar n h]
    · rw [hexStrToNat_append, ih (n / 16) (Nat.div_lt_self (by omega) (by norm_num))]
      have hm : hexVal? (hexDigitChar (n % 16)) = some (n % 16) :=
        hexVal?_hexDigitChar _ (Nat.mod_lt _ (by norm_num))
      simp [hexStrToNat, hm]
      omega

theorem natToHex_chars {n : Nat} : ∀ c ∈ natToHex n, ∃ v, v < 16 ∧ c = hexDigitChar v := by
  induction n using Nat.strong_induction_on with
  | _ n ih =>
    rw [natToHex_eq]
    split_ifs with h
    · intro c hc
      simp only [List.mem_singleton] at hc
      subst hc
      exact ⟨n, h, rfl⟩
    · intro c hc
      rcases List.mem_append.1 hc with hc | hc
      · exact ih (n / 16) (Nat.div_lt_self (by omega) (by norm_num)) c hc
      · simp only [List.mem_singleton] at hc
        subst hc
        exact ⟨n % 16, Nat.mod_lt _ (by norm_num), rfl⟩

theorem natToHex_length_le {n k : Nat} (hk : 1 ≤ k) (h : n < 16 ^ k) :
    (natToHex n).length ≤ k := by
  induction n using Nat.strong_induction_on generalizing k with
  | _ n ih =>
    rw [natToHex_eq]
    split_ifs with h16
    · simpa using hk
    · rcases k with _ | k'
      · omega
      rcases Nat.eq_zero_or_pos k' with rfl | hk'
      · rw [pow_one] at h
        omega
      have hd : n / 16 < 16 ^ k' := by
        rw [Nat.div_lt_iff_lt_mul (by norm_num : 0 < 16)]
        calc n < 16 ^ (k' + 1) := h
        _ = 16 ^ k' * 16 := by rw [pow_succ]
      have := ih (n / 16) (Nat.div_lt_self (by omega) (by norm_num)) hk' hd
      simp only [List.length_append, List.length_singleton]
      omega

end TsIp

namespace TsIp

theorem bytesFold_acc (bs : List Nat) (a : Nat) :
    bs.foldl (fun acc b => 256 * acc + b) a = a * 256 ^ bs.length + bytesToNat bs := by
  induction bs generalizing a with
  | nil => simp [bytesToNat]
  | cons b bs ih =>
    show List.foldl _ (256 * a + b) bs = _
    rw [ih]
    have : bytesToNat (b :: bs) = (256 * 0 + b) * 256 ^ bs.length + bytesToNat bs := by
      show List.foldl _ (256 * 0 + b) bs = _
      rw [ih]
    rw [this]
    simp [List.length_cons]
    ring

theorem bytesToNat_cons (b : Nat) (bs : List Nat) :
    bytesToNat (b :: bs) = b * 256 ^ bs.length + bytesToNat bs := by
  show List.foldl _ (256 * 0 + b) bs = _
  rw [bytesFold_acc]
  ring_nf

theorem bytesToNat_append (xs ys : List Nat) :
    bytesToNat (xs ++ ys) = bytesToNat xs * 256 ^ ys.length + bytesToNat ys := by
  show List.foldl _ 0 (xs ++ ys) = _
  rw [List.foldl_append]
  exact bytesFold_acc ys _

theorem bytesToNat_lt {bs : List Nat} (h : ∀ b ∈ bs, b < 256) :
    bytesToNat bs < 256 ^ bs.length := by
  induction bs with
  | nil => simp [bytesToNat]
  | cons b bs ih =>
    rw [bytesToNat_cons]
    have hb : b < 256 := h b (by simp)
    have hr := ih fun x hx => h x (by simp [hx])
    have : b * 256 ^ bs.length ≤ 255 * 256 ^ bs.length :=
      Nat.mul_le_mul_right _ (by omega)
    calc b * 256 ^ bs.length + bytesToNat bs
        ≤ 255 * 256 ^ bs.length + bytesToNat bs := by omega
      _ < 255 * 256 ^ bs.length + 256 ^ bs.length := by omega
      _ = 256 ^ (bs.length + 1) := by ring
      _ = 256 ^ (b :: bs).length := by simp

theorem bytesToNat_replicate_zero (k : Nat) : bytesToNat (List.replicate k 0) = 0 := by
  induction k with
  | zero => rfl
  | succ k ih => rw [List.replicate_succ, bytesToNat_cons, ih]; simp

theorem bytesToNat_eq_zero {bs : List Nat} (h : ∀ b ∈ bs, b < 256)
    (h0 : bytesToNat bs = 0) : bs = List.replicate bs.length 0 := by
  induction bs with
  | nil => rfl
  | cons b bs ih =>
    rw [bytesToNat_cons] at h0
    have hb0 : b = 0 := by
      rcases Nat.eq_zero_or_pos b with rfl | hb
      · rfl
      · exfalso
        have : 1 * 256 ^ bs.length ≤ b * 256 ^ bs.length :=
          Nat.mul_le_mul_right _ hb
        have hp : 0 < 256 ^ bs.length := Nat.pos_pow_of_pos _ (by norm_num)
        omega
    subst hb0
    have : bytesToNat bs = 0 := by
      have hp : 0 < 256 ^ bs.length := Nat.pos_pow_of_pos _ (by norm_num)
      omega
    have hr := ih (fun x hx => h x (by simp [hx])) this
    simp only [List.length_cons, List.replicate_succ]
    rw [← hr]

theorem bufferFromHex_cons {c1 c2 : Char} {h l : Nat} {rest : Str}
    (h1 : hexVal? c1 = some h) (h2 : hexVal? c2 = some l) :
    bufferFromHex (c1 :: c2 :: rest) = (16 * h + l) :: bufferFromHex rest := by
  simp only [bufferFromHex, h1, h2]

theorem bufferFromHex_length : ∀ (s : Str), (∀ c ∈ s, (hexVal? c).isSome) →
    (bufferFromHex s).length = s.length / 2
  | [], _ => rfl
  | [_], _ => by simp [bufferFromHex]
  | c1 :: c2 :: rest, hv => by
    obtain ⟨v1, hv1⟩ := Option.isSome_iff_exists.1 (hv c1 (by simp))
    obtain ⟨v2, hv2⟩ := Option.isSome_iff_exists.1 (hv c2 (by simp))
    rw [bufferFromHex_cons hv1 hv2]
    have := bufferFromHex_length rest fun c hc => hv c (by simp [hc])
    simp only [List.length_cons, this]
    omega

theorem bufferFromHex_all_lt : ∀ (s : Str), ∀ b ∈ bufferFromHex s, b < 256
  | [] => by simp [bufferFromHex]
  | [c] => by simp [bufferFromHex]
  | c1 :: c2 :: rest => by
    intro b hb
    unfold bufferFromHex at hb
    rcases hh1 : hexVal? c1 with _ | v1 <;> rw [hh1] at hb
    · simp at hb
    rcases hh2 : hexVal? c2 with _ | v2 <;> rw [hh2] at hb
    · simp at hb
    simp only [List.mem_cons] at hb
    rcases hb with rfl | hb
    · have := hexVal?_lt hh1
      have := hexVal?_lt hh2
      omega
    · exact bufferFromHex_all_lt rest b hb

theorem bytesToNat_bufferFromHex : ∀ (s : Str), (∀ c ∈ s, (hexVal? c).isSome) →
    s.length % 2 = 0 → bytesToNat (bufferFromHex s) = hexStrToNat s
  | [], _, _ => rfl
  | [c], _, hev => by simp at hev
  | c1 :: c2 :: rest, hv, hev => by
    obtain ⟨v1, hv1⟩ := Option.isSome_iff_exists.1 (hv c1 (by simp))
    obtain ⟨v2, hv2⟩ := Option.isSome_iff_exists.1 (hv c2 (by simp))
    have hvrest : ∀ c ∈ rest, (hexVal? c).isSome := fun c hc => hv c (by simp [hc])
    have hevrest : rest.length % 2 = 0 := by
      simp only [List.length_cons] at hev
      omega
    rw [bufferFromHex_cons hv1 hv2, bytesToNat_cons,
      bytesToNat_bufferFromHex rest hvrest hevrest,
      bufferFromHex_length rest hvrest]
    have hsplit : (c1 :: c2 :: rest : Str) = [c1, c2] ++ rest := rfl
    rw [hsplit, hexStrToNat_append]
    have h12 : hexStrToNat [c1, c2] = 16 * v1 + v2 := by
      simp [hexStrToNat, hv1, hv2]
    rw [h12]
    have hpow : (256 : Nat) ^ (rest.length / 2) = 16 ^ rest.length := by
      obtain ⟨k, hk⟩ : ∃ k, rest.length = 2 * k := ⟨rest.length / 2, by omega⟩
      rw [hk, Nat.mul_div_cancel_left _ (by norm_num : 0 < 2), pow_mul]
      norm_num
    rw [hpow]

theorem bytesToHex_length (bs : List Nat) : (bytesToHex bs).length = 2 * bs.length := by
  induction bs with
  | nil => rfl
  | cons b bs ih =>
    show (byteToHex b ++ bytesToHex bs).length = _
    simp only [List.length_append, ih, byteToHex, List.length_cons]
    simp
    omega

theorem hexStrToNat_byteToHex {b : Nat} (h : b < 256) : hexStrToNat (byteToHex b) = b := by
  have h1 : b / 16 % 16 < 16 := Nat.mod_lt _ (by norm_num)
  have h2 : b % 16 < 16 := Nat.mod_lt _ (by norm_num)
  simp [byteToHex, hexStrToNat, hexVal?_hexDigitChar _ h1, hexVal?_hexDigitChar _ h2]
  omega

theorem hexStrToNat_bytesToHex {bs : List Nat} (h : ∀ b ∈ bs, b < 256) :
    hexStrToNat (bytesToHex bs) = bytesToNat bs := by
  induction bs with
  | nil => rfl
  | cons b bs ih =>
    show hexStrToNat (byteToHex b ++ bytesToHex bs) = _
    rw [hexStrToNat_append, hexStrToNat_byteToHex (h b (by simp)),
      ih fun x hx => h x (by simp [hx]), bytesToHex_length, bytesToNat_cons]
    have hpow : (16 : Nat) ^ (2 * bs.length) = 256 ^ bs.length := by
      rw [pow_mul]
      norm_num
    rw [hpow]

theorem bytesToHex_chars (bs : List Nat) :
    ∀ c ∈ bytesToHex bs, ∃ v, v < 16 ∧ c = hexDigitChar v := by
  induction bs with
  | nil => simp [bytesToHex]
  | cons b bs ih =>
    intro c hc
    rcases List.mem_append.1 hc with hc | hc
    · simp only [byteToHex, List.mem_cons, List.mem_singleton] at hc
      rcases hc with rfl | rfl | h'
      · exact ⟨b / 16 % 16, Nat.mod_lt _ (by norm_num), rfl⟩
      · exact ⟨b % 16, Nat.mod_lt _ (by norm_num), rfl⟩
      · cases h'
    · exact ih c hc

theorem hexStrToNat_replicate_zero (k : Nat) : hexStrToNat (List.replicate k '0') = 0 := by
  induction k with
  | zero => rfl
  | succ k ih =>
    rw [List.replicate_succ]
    show List.foldl _ (16 * 0 + (hexVal? '0').getD 0) _ = 0
    have : (16 * 0 + (hexVal? '0').getD 0) = 0 := by decide
    rw [this]
    exact ih

theorem hexStrToNat_padStart (n : Nat) (s : Str) :
    hexStrToNat (padStart n '0' s) = hexStrToNat s := by
  unfold padStart
  rw [hexStrToNat_append, hexStrToNat_replicate_zero]
  simp

end TsIp

namespace TsIp

theorem mappedV4Prefix_length : mappedV4Prefix.length = 12 := rfl

theorem padStart32_valid {n : Nat} :
    ∀ c ∈ padStart 32 '0' (natToHex n), (hexVal? c).isSome := by
  intro c hc
  rcases List.mem_append.1 hc with hc | hc
  · rw [List.eq_of_mem_replicate hc]
    decide
  · obtain ⟨v, hv, rfl⟩ := natToHex_chars c hc
    rw [hexVal?_hexDigitChar v hv]
    rfl

theorem padStart32_length {n : Nat} (h : n < 2 ^ 128) :
    (padStart 32 '0' (natToHex n)).length = 32 := by
  have h16 : n < 16 ^ 32 := by
    have : (16 : Nat) ^ 32 = 2 ^ 128 := by norm_num
    omega
  have hle := natToHex_length_le (by norm_num) h16
  unfold padStart
  rw [List.length_append, List.length_replicate]
  omega

theorem fromDecimal_bytes_length {n : Nat} (h : n < 2 ^ 128) :
    (bufferFromHex (padStart 32 '0' (natToHex n))).length = 16 := by
  rw [bufferFromHex_length _ padStart32_valid, padStart32_length h]

theorem fromDecimal_bytes_val {n : Nat} (h : n < 2 ^ 128) :
    bytesToNat (bufferFromHex (padStart 32 '0' (natToHex n))) = n := by
  rw [bytesToNat_bufferFromHex _ padStart32_valid (by rw [padStart32_length h]),
    hexStrToNat_padStart, hexStrToNat_natToHex]

theorem fromDecimal_take12_iff {n : Nat} (h : n < 2 ^ 128) :
    (bufferFromHex (padStart 32 '0' (natToHex n))).take 12 = List.replicate 12 0
      ↔ n < 2 ^ 32 := by
  set bytes := bufferFromHex (padStart 32 '0' (natToHex n)) with hbytes
  have hlen : bytes.length = 16 := fromDecimal_bytes_length h
  have hval : bytesToNat bytes = n := fromDecimal_bytes_val h
  have hlt : ∀ b ∈ bytes, b < 256 := bufferFromHex_all_lt _
  have hsplit : bytes = bytes.take 12 ++ bytes.drop 12 := (List.take_append_drop _ _).symm
  have hdlen : (bytes.drop 12).length = 4 := by rw [List.length_drop, hlen]
  have hdec : bytesToNat (bytes.take 12) * 256 ^ 4 + bytesToNat (bytes.drop 12) = n := by
    conv_rhs => rw [← hval, hsplit]
    rw [bytesToNat_append, hdlen]
  have hdlt : bytesToNat (bytes.drop 12) < 2 ^ 32 := by
    have := @bytesToNat_lt (bytes.drop 12)
      fun b hb => hlt b (List.mem_of_mem_drop hb)
    rw [hdlen] at this
    norm_num at this ⊢
    omega
  constructor
  · intro hz
    rw [hz, bytesToNat_replicate_zero] at hdec
    omega
  · intro hn
    have htz : bytesToNat (bytes.take 12) = 0 := by
      rcases Nat.eq_zero_or_pos (bytesToNat (bytes.take 12)) with h0 | hpos
      · exact h0
      · exfalso
        have : 1 * 256 ^ 4 ≤ bytesToNat (bytes.take 12) * 256 ^ 4 :=
          Nat.mul_le_mul_right _ hpos
        norm_num at this
        omega
    have := bytesToNat_eq_zero
      (fun b hb => hlt b (List.mem_of_mem_take hb)) htz
    rw [List.length_take, hlen] at this
    simpa using this

theorem fromDecimal_spec {n : Nat} (h : n < 2 ^ 128) :
    (fromDecimal n false).decimal = n ∧
      ((fromDecimal n false).m_isV4 = true ↔ n < 2 ^ 32) := by
  have hlen : (bufferFromHex (padStart 32 '0' (natToHex n))).length = 16 :=
    fromDecimal_bytes_length h
  have hval : bytesToNat (bufferFromHex (padStart 32 '0' (natToHex n))) = n :=
    fromDecimal_bytes_val h
  have hlt : ∀ b ∈ bufferFromHex (padStart 32 '0' (natToHex n)), b < 256 :=
    bufferFromHex_all_lt _
  by_cases hc : (bufferFromHex (padStart 32 '0' (natToHex n))).take 12
      = List.replicate 12 0
  · have heq : fromDecimal n false =
        { m_bytes := mappedV4Prefix ++ (bufferFromHex (padStart 32 '0' (natToHex n))).drop 12
          m_isV4 := true, m_zone := none } := by
      unfold fromDecimal
      rw [if_pos ⟨rfl, hc⟩]
    rw [heq]
    constructor
    · show hexStrToNat (bytesToHex ((mappedV4Prefix ++ _).drop 12)) = n
      have hd : (mappedV4Prefix ++ (bufferFromHex (padStart 32 '0' (natToHex n))).drop 12).drop 12
          = (bufferFromHex (padStart 32 '0' (natToHex n))).drop 12 := by
        rw [← mappedV4Prefix_length, List.drop_left]
      rw [hd, hexStrToNat_bytesToHex fun b hb => hlt b (List.mem_of_mem_drop hb)]
      have hsplit := (List.take_append_drop 12 (bufferFromHex (padStart 32 '0' (natToHex n)))).symm
      conv_rhs => rw [← hval, hsplit]
      rw [bytesToNat_append, hc, bytesToNat_replicate_zero]
      simp
    · simpa using (fromDecimal_take12_iff h).1 hc
  · have heq : fromDecimal n false =
        { m_bytes := bufferFromHex (padStart 32 '0' (natToHex n))
          m_isV4 := false, m_zone := none } := by
      unfold fromDecimal
      rw [if_neg]
      rintro ⟨-, hz⟩
      exact hc hz
    rw [heq]
    constructor
    · show hexStrToNat (bytesToHex _) = n
      rw [hexStrToNat_bytesToHex hlt, hval]
    · constructor
      · rintro ⟨⟩
      · intro hn
        exact absurd ((fromDecimal_take12_iff h).2 hn) hc

theorem fromDecimal_length {n : Nat} (f : Bool) (h : n < 2 ^ 128) :
    (fromDecimal n f).m_bytes.length = 16 := by
  have hlen : (bufferFromHex (padStart 32 '0' (natToHex n))).length = 16 :=
    fromDecimal_bytes_length h
  unfold fromDecimal
  dsimp only
  split_ifs with hc
  · show (mappedV4Prefix ++ _).length = 16
    rw [List.length_append, mappedV4Prefix_length, List.length_drop, hlen]
  · exact hlen

theorem fromDecimal_zone (n : Nat) (f : Bool) : (fromDecimal n f).m_zone = none := by
  unfold fromDecimal
  dsimp only
  split_ifs <;> rfl

end TsIp

namespace TsIp

theorem v4StringToBuffer_length (s : Str) : (v4StringToBuffer s).length = 16 := by
  unfold v4StringToBuffer
  dsimp only
  rw [List.length_append, mappedV4Prefix_length, List.length_append, List.length_replicate]
  have h4 : (List.take 4 ((splitOnChar '.' s).map fun octet => jsToUint8 (parseIntDec octet))).length ≤ 4 := by
    simp [List.length_take]
  omega

/-- C1 (code_bug evaluation): the spec claims the compressed round-trip
holds for every valid compressed IPv6 address, explicitly including
trailing-zero-run addresses such as `2607:f8b0:4009:805::`.  Evaluating the
code there refutes it: `expandV6` inserts a zero-fill for each of the two
empty components produced by the trailing `::`, the buffer ends up with 20
bytes, the default rendering returns `2607:f8b0:4009:805:` (not the input),
and the expanded rendering has ten hextets (not eight). -/
theorem claim_C1_code_eval :
    ((parse (str "2607:f8b0:4009:805::")).bind fun ip => ip.jsToString none)
        = some (str "2607:f8b0:4009:805:")
    ∧ ((parse (str "2607:f8b0:4009:805::")).bind fun ip => ip.jsToString (some .expanded))
        = some (str "2607:f8b0:4009:805:0:0:0:0:0:0")
    ∧ (parse (str "2607:f8b0:4009:805::")).map (fun ip => ip.m_bytes.length) = some 20 :=
  ⟨rfl, rfl, rfl⟩

/-- C2 (counterexample): `parse` accepts `"1:2"` (it matches the IPv6
character-class test) and returns an Address whose buffer has 4 octets,
not 16. -/
theorem claim_C2_counterexample :
    (parse (str "1:2")).map (fun ip => ip.m_bytes.length) = some 4 := rfl

/-- C2 (amended): the 16-octet invariant does hold for the Addresses built
by the dotted-IPv4 path, by the `::` literal, by `fromDecimal` of any value
below `2^128`, and for the zero value `new IP()`; only the IPv6 textual
path can produce a buffer of a different length. -/
theorem claim_C2_amended :
    (∀ s ip, parse s = some ip →
      (stripBrackets s = str "::" ∨ isIPv4 (stripBrackets s) = true) →
      ip.m_bytes.length = 16)
    ∧ (∀ (n : Nat) (f : Bool), n < 2 ^ 128 → (fromDecimal n f).m_bytes.length = 16)
    ∧ IP.new.m_bytes.length = 16 := by
  refine ⟨?_, fun n f h => fromDecimal_length f h, rfl⟩
  intro s ip hp hor
  unfold parse at hp
  dsimp only at hp
  split_ifs at hp with h1 h2 h3
  · injection hp with hp
    rw [← hp]
    rfl
  · injection hp with hp
    rw [← hp]
    exact v4StringToBuffer_length _
  · rcases hor with hor | hor
    · exact absurd hor h1
    · exact absurd hor h2

/-- C2 witness: the amended invariant evaluated at the concrete inputs
`"192.168.2.1"` (IPv4 path) and `n = 7` for `fromDecimal`. -/
theorem claim_C2_amended_witness :
    (parse (str "192.168.2.1") = some { m_bytes := [0,0,0,0,0,0,0,0,0,0,255,255,192,168,2,1], m_isV4 := true, m_zone := none }
      ∧ isIPv4 (stripBrackets (str "192.168.2.1")) = true)
    ∧ (7 : Nat) < 2 ^ 128
    ∧ ({ m_bytes := [0,0,0,0,0,0,0,0,0,0,255,255,192,168,2,1], m_isV4 := true, m_zone := none } : IP).m_bytes.length = 16 :=
  ⟨⟨rfl, rfl⟩, by norm_num,
    by
      have := claim_C2_amended.1 (str "192.168.2.1")
        { m_bytes := [0,0,0,0,0,0,0,0,0,0,255,255,192,168,2,1], m_isV4 := true, m_zone := none }
        rfl (Or.inr rfl)
      exact this⟩

/-- C3 (counterexample): `fromDecimal` performs no range check whatsoever;
at `2^128` it does not fail with a RangeError but silently returns a
16-byte Address (the 33rd hex digit is dropped by the odd-length hex
decode), whose decimal value is `2^124`, not `2^128`. -/
theorem claim_C3_counterexample :
    fromDecimal (2 ^ 128) false
      = { m_bytes := 16 :: List.replicate 15 0, m_isV4 := false, m_zone := none }
    ∧ (fromDecimal (2 ^ 128) false).decimal = 2 ^ 124 := ⟨rfl, rfl⟩

/-- C3 (amended): `fromDecimal` succeeds on every non-negative value (it is
a total function with no failure path); for values in `[0, 2^128)` the
returned Address has a 16-octet buffer, while an out-of-range value such as
`2^128` still yields an Address, just one that misrepresents the value. -/
theorem claim_C3_amended :
    (∀ (n : Nat) (f : Bool), n < 2 ^ 128 → (fromDecimal n f).m_bytes.length = 16)
    ∧ (fromDecimal (2 ^ 128) false).m_bytes.length = 16
    ∧ (fromDecimal (2 ^ 128) false).decimal = 2 ^ 124 :=
  ⟨fun _ f h => fromDecimal_length f h, rfl, rfl⟩

/-- C3 witness: the in-range half of the amended claim at `n = 7`. -/
theorem claim_C3_amended_witness :
    (7 : Nat) < 2 ^ 128 ∧ (fromDecimal 7 true).m_bytes.length = 16 :=
  ⟨by norm_num, claim_C3_amended.1 7 true (by norm_num)⟩

/-- C5 (counterexample): the claim's own example input — an IPv4-mapped
IPv6 literal carrying a zone — produces an Address with `isV4 = true`
*and* `zone = "eth0"` set at the same time. -/
theorem claim_C5_counterexample :
    (parse (str "::ffff:c0a8:201%eth0")).map (fun ip => (ip.m_isV4, ip.m_zone))
      = some (true, some (str "eth0")) := rfl

/-- C5 (amended): a zone can only be produced by the IPv6 textual path of
`parse` (never by the `::` literal, the dotted-IPv4 path, or
`fromDecimal`), but on that path the mapped-prefix detection can still set
`isV4 = true`, so zone-with-`isV4` is possible (see the counterexample). -/
theorem claim_C5_amended :
    (∀ s ip, parse s = some ip → ip.m_zone ≠ none →
      stripBrackets s ≠ str "::" ∧ isIPv4 (stripBrackets s) = false
        ∧ isIPv6 (stripBrackets s) = true)
    ∧ (∀ (n : Nat) (f : Bool), (fromDecimal n f).m_zone = none)
    ∧ (parse (str "::ffff:c0a8:201%eth0")).map (fun ip => (ip.m_isV4, ip.m_zone))
        = some (true, some (str "eth0")) := by
  refine ⟨?_, fromDecimal_zone, rfl⟩
  intro s ip hp hz
  unfold parse at hp
  dsimp only at hp
  split_ifs at hp with h1 h2 h3
  · injection hp with hp
    rw [← hp] at hz
    exact absurd rfl hz
  · injection hp with hp
    rw [← hp] at hz
    exact absurd rfl hz
  · exact ⟨h1, by simpa using h2, h3⟩

/-- C5 witness: the zone-bearing path evaluated at the concrete input
`"fe80::1%eth0"`, discharging the hypotheses of the amended theorem. -/
theorem claim_C5_amended_witness :
    (parse (str "fe80::1%eth0")).map IP.m_zone = some (some (str "eth0"))
    ∧ stripBrackets (str "fe80::1%eth0") ≠ str "::"
    ∧ isIPv4 (stripBrackets (str "fe80::1%eth0")) = false
    ∧ isIPv6 (stripBrackets (str "fe80::1%eth0")) = true := by
  refine ⟨rfl, ?_⟩
  have h := claim_C5_amended.1 (str "fe80::1%eth0")
    { m_bytes := [254,128,0,0,0,0,0,0,0,0,0,0,0,0,0,1], m_isV4 := false, m_zone := some (str "eth0") }
    rfl (by simp)
  exact ⟨h.1, h.2.1, h.2.2⟩

/-- C6: parsing the written-out mapped literal `0:0:0:0:0:ffff:c0a8:201`
sets `isV4` and the default rendering is the dotted form `192.168.2.1`. -/
theorem claim_C6 :
    (parse (str "0:0:0:0:0:ffff:c0a8:201")).map
      (fun ip => (ip.m_isV4, ip.jsToString none)) = some (true, some (str "192.168.2.1")) := rfl

/-- C8 (code_bug evaluation): `parse("192.168.2.")` does not fail: the
string fails the IPv4 shape test (no fourth octet) but contains IPv6-class
characters, so it takes the IPv6 path, where hex decoding truncates at the
first `'.'`, and an Address with the single-byte buffer `[0x19]` is
returned — contradicting the spec and the repository's own test intent. -/
theorem claim_C8_code_eval :
    parse (str "192.168.2.") = some { m_bytes := [25], m_isV4 := false, m_zone := none } := rfl

/-- C9 (counterexample): two of the three shapes the claim says must fail
are in fact handled without error: a bracketed IPv6 host with the
non-numeric port `dead` returns the pair with a `NaN` port, and a
dot-containing input splitting into three colon parts returns
`(first part, 0)`. -/
theorem claim_C9_counterexample :
    splitHostPort (str "[2607:f8b0:4009:805::200e]:dead")
      = some (str "[2607:f8b0:4009:805::200e]", none)
    ∧ splitHostPort (str "1.2:3:4") = some (str "1.2", some 0) := ⟨rfl, rfl⟩

end TsIp

namespace TsIp

theorem splitOnChar_ne_nil (sep : Char) (s : Str) : splitOnChar sep s ≠ [] := by
  cases s with
  | nil => simp [splitOnChar]
  | cons c rest =>
    unfold splitOnChar
    rcases h : splitOnChar sep rest with _ | ⟨g, gs⟩
    · simp
    · split_ifs <;> simp

theorem splitOnChar_length_ge_two {sep : Char} {s : Str} (h : s.contains sep = true) :
    2 ≤ (splitOnChar sep s).length := by
  induction s with
  | nil => simp at h
  | cons c rest ih =>
    unfold splitOnChar
    rw [List.contains_cons, Bool.or_eq_true] at h
    rcases hs : splitOnChar sep rest with _ | ⟨g, gs⟩
    · exact absurd hs (splitOnChar_ne_nil sep rest)
    · dsimp only
      rcases h with hc | hc
      · rw [if_pos (beq_iff_eq.1 hc).symm]
        simp
      · have h2 := ih hc
        rw [hs] at h2
        split_ifs <;> simpa using h2

theorem v6StringToBuffer_eq_none_iff {ip : Str} :
    v6StringToBuffer ip = none ↔
      ip.contains '%' = true ∧ 2 < (splitOnChar '%' ip).length := by
  unfold v6StringToBuffer
  dsimp only
  split_ifs with hc
  · rcases hs : splitOnChar '%' ip with _ | ⟨p0, _ | ⟨p1, rest⟩⟩
    · exact absurd hs (splitOnChar_ne_nil '%' ip)
    · have := splitOnChar_length_ge_two hc
      rw [hs] at this
      simp at this
    · cases rest with
      | nil => simp [hs, hc]
      | cons p2 rest2 =>
        simp only [hs]
        constructor
        · intro
          exact ⟨hc, by simp⟩
        · intro
          rfl
  · simp only [Option.map_eq_none']
    constructor
    · rintro ⟨⟩
    · rintro ⟨hc', -⟩
      exact absurd hc' hc

end TsIp

namespace TsIp

/-- C10: `parse` can only fail for one of the two stated reasons — a
percent-split with more than two parts, or a (bracket-stripped, not `::`)
input that fails the unanchored IPv4 shape test and contains no character
of the class `[0-9a-f:%]` — and an input such as `"hello"` (which contains
hex letters) is accepted on the IPv6 path, returning an Address (here with
an empty buffer, since `"hello"` hex-decodes to nothing). -/
theorem claim_C10 :
    (∀ s, parse s = none →
      2 < (splitOnChar '%' (stripBrackets s)).length
      ∨ (stripBrackets s ≠ str "::" ∧ isIPv4 (stripBrackets s) = false
          ∧ isIPv6 (stripBrackets s) = false))
    ∧ parse (str "hello") = some { m_bytes := [], m_isV4 := false, m_zone := none } := by
  refine ⟨?_, rfl⟩
  intro s hp
  unfold parse at hp
  dsimp only at hp
  split_ifs at hp with h1 h2 h3
  · exact Or.inl ((v6StringToBuffer_eq_none_iff.1 (Option.map_eq_none'.1 hp)).2)
  · exact Or.inr ⟨h1, by simpa using h2, by simpa using h3⟩

end TsIp

namespace TsIp

/-- C10 witness: the error characterization discharged at the concrete
rejected input `"ghi"` (no IPv4 shape, no character of the IPv6 class). -/
theorem claim_C10_witness :
    parse (str "ghi") = none
    ∧ (2 < (splitOnChar '%' (stripBrackets (str "ghi"))).length
      ∨ (stripBrackets (str "ghi") ≠ str "::" ∧ isIPv4 (stripBrackets (str "ghi")) = false
          ∧ isIPv6 (stripBrackets (str "ghi")) = false)) :=
  ⟨rfl, claim_C10.1 (str "ghi") rfl⟩

end TsIp

namespace TsIp

theorem splitHostPort_eq_none_iff (host : Str) :
    splitHostPort host = none ↔
      host.contains '.' = false
      ∧ (¬(host.contains '[' = true ∧ host.contains ']' = true)
        ∨ (host.drop (indexOfChar ']' host + 1) ≠ []
          ∧ (splitOnChar ':' (host.drop (indexOfChar ']' host + 1))).length ≠ 2)) := by
  unfold splitHostPort
  dsimp only
  split_ifs with hdot hbr hright
  · constructor
    · intro h
      exfalso
      revert h
      split <;> simp
    · rintro ⟨hf, -⟩
      rw [hdot] at hf
      cases hf
  · constructor
    · rintro ⟨⟩
    · rintro ⟨-, hor | hor⟩
      · exact absurd hbr hor
      · exact absurd (List.length_eq_zero.1 hright) hor.1
  · constructor
    · intro h
      refine ⟨by simpa using hdot, Or.inr ⟨fun hz => hright (by rw [hz]; rfl), ?_⟩⟩
      revert h
      split
      · rintro ⟨⟩
      · rename_i hne
        rintro - hlen
        obtain ⟨a, b, hab⟩ := List.length_eq_two.1 hlen
        exact hne a b hab
    · rintro ⟨-, hor | hor⟩
      · exact absurd hbr hor
      · split
        · rename_i head p1 heq
          exact absurd (by rw [heq]; rfl) hor.2
        · rfl
  · exact iff_of_true rfl ⟨by simpa using hdot, Or.inl hbr⟩

end TsIp

namespace TsIp

/-- C9 (amended): `splitHostPort` fails exactly when the input contains no
`'.'` and either lacks a `[` or a `]`, or the text after the first `]` is
non-empty and does not split on `':'` into exactly two parts.  With a `'.'`
present it never fails (three-or-more colon parts fall back to
`(first part, 0)`), and a bracketed host with the non-numeric port `dead`
returns a `NaN` port instead of failing; the unbracketed multi-colon
literal of the claim does fail. -/
theorem claim_C9_amended :
    (∀ host : Str, splitHostPort host = none ↔
      host.contains '.' = false
      ∧ (¬(host.contains '[' = true ∧ host.contains ']' = true)
        ∨ (host.drop (indexOfChar ']' host + 1) ≠ []
          ∧ (splitOnChar ':' (host.drop (indexOfChar ']' host + 1))).length ≠ 2)))
    ∧ (∀ host : Str, host.contains '.' = true → splitHostPort host ≠ none)
    ∧ splitHostPort (str "2607:f8b0:4009:805::200e:9999") = none
    ∧ splitHostPort (str "[2607:f8b0:4009:805::200e]:dead")
        = some (str "[2607:f8b0:4009:805::200e]", none) := by
  refine ⟨splitHostPort_eq_none_iff, ?_, rfl, rfl⟩
  intro host h hn
  have hc := (splitHostPort_eq_none_iff host).1 hn
  rw [h] at hc
  cases hc.1

/-- C9 witness: the never-fails-with-a-dot conjunct discharged at the
concrete input `"192.168.2.1:9999"`. -/
theorem claim_C9_amended_witness :
    (str "192.168.2.1:9999").contains '.' = true
    ∧ splitHostPort (str "192.168.2.1:9999") ≠ none :=
  ⟨rfl, claim_C9_amended.2.1 (str "192.168.2.1:9999") rfl⟩

end TsIp

namespace TsIp

/-- C4: the decimal round-trip holds for every value below `2^128` with
`forceV6` left at its default `false`, and every value below `2^32` is
reinterpreted as an IPv4 address (mapped prefix substituted). -/
theorem claim_C4 :
    ∀ n : Nat, n < 2 ^ 128 →
      (fromDecimal n false).decimal = n
      ∧ (n < 2 ^ 32 → (fromDecimal n false).m_isV4 = true) :=
  fun _ h => ⟨(fromDecimal_spec h).1, fun h32 => (fromDecimal_spec h).2.2 h32⟩

/-- C4 witness: the round-trip discharged at the concrete value
`3232236033` (the address `192.168.2.1` of the repository's tests). -/
theorem claim_C4_witness :
    (3232236033 : Nat) < 2 ^ 128
    ∧ ((fromDecimal 3232236033 false).decimal = 3232236033
      ∧ ((3232236033 : Nat) < 2 ^ 32 → (fromDecimal 3232236033 false).m_isV4 = true)) :=
  ⟨by norm_num, claim_C4 3232236033 (by norm_num)⟩

end TsIp

namespace TsIp

theorem hexStrToNat_toHex4 (h : Nat) : hexStrToNat (toHex4 h) = h := by
  unfold toHex4
  rw [hexStrToNat_padStart, hexStrToNat_natToHex]

theorem toHex4_injective : Function.Injective toHex4 := fun a b hab => by
  have := congrArg hexStrToNat hab
  rwa [hexStrToNat_toHex4, hexStrToNat_toHex4] at this

theorem toHex4_zero : toHex4 0 = str "0000" := rfl

theorem toHex4_length {h : Nat} (hh : h < 65536) : (toHex4 h).length = 4 := by
  have h16 : h < 16 ^ 4 := by norm_num; omega
  have := natToHex_length_le (k := 4) (by norm_num) h16
  unfold toHex4 padStart
  rw [List.length_append, List.length_replicate]
  omega

theorem toHex4_chars (h : Nat) : ∀ c ∈ toHex4 h, ∃ v, v < 16 ∧ c = hexDigitChar v := by
  intro c hc
  rcases List.mem_append.1 hc with hc | hc
  · rw [List.eq_of_mem_replicate hc]
    exact ⟨0, by norm_num, rfl⟩
  · exact natToHex_chars c hc

theorem toHex4_ne_colon (h : Nat) : ∀ c ∈ toHex4 h, c ≠ ':' := by
  intro c hc
  obtain ⟨v, hv, rfl⟩ := toHex4_chars h c hc
  exact hexDigitChar_ne_colon v hv

theorem hexdigits_inj : ∀ (s t : Str),
    (∀ c ∈ s, ∃ v, v < 16 ∧ c = hexDigitChar v) →
    (∀ c ∈ t, ∃ v, v < 16 ∧ c = hexDigitChar v) →
    s.length = t.length → hexStrToNat s = hexStrToNat t → s = t := by
  intro s
  induction s using List.reverseRecOn with
  | nil =>
    intro t _ _ hlen _
    exact (List.eq_nil_of_length_eq_zero (by simpa using hlen.symm)).symm
  | append_singleton s' c ih =>
    intro t hs ht hlen hval
    rcases List.eq_nil_or_concat t with rfl | ⟨t', d, rfl⟩
    · simp at hlen
    rw [List.concat_eq_append] at ht hlen hval ⊢
    obtain ⟨vc, hvc, hceq⟩ := hs c (by simp)
    obtain ⟨vd, hvd, hdeq⟩ := ht d (by simp)
    subst hceq
    subst hdeq
    rw [hexStrToNat_append, hexStrToNat_append] at hval
    have hc1 : hexStrToNat [hexDigitChar vc] = vc := by
      simp [hexStrToNat, hexVal?_hexDigitChar vc hvc]
    have hd1 : hexStrToNat [hexDigitChar vd] = vd := by
      simp [hexStrToNat, hexVal?_hexDigitChar vd hvd]
    rw [hc1, hd1] at hval
    simp only [List.length_singleton, pow_one] at hval
    have hveq : vc = vd := by omega
    have hseq : hexStrToNat s' = hexStrToNat t' := by omega
    have hlen' : s'.length = t'.length := by
      simp only [List.length_append, List.length_singleton] at hlen
      omega
    rw [ih t' (fun x hx => hs x (by simp [hx])) (fun x hx => ht x (by simp [hx])) hlen' hseq,
      hveq]

theorem byteToHex_chars (b : Nat) : ∀ c ∈ byteToHex b, ∃ v, v < 16 ∧ c = hexDigitChar v := by
  intro c hc
  unfold byteToHex at hc
  rcases List.mem_cons.1 hc with rfl | hc
  · exact ⟨b / 16 % 16, Nat.mod_lt _ (by norm_num), rfl⟩
  · rcases List.mem_singleton.1 hc with rfl
    exact ⟨b % 16, Nat.mod_lt _ (by norm_num), rfl⟩

theorem byteToHex_pair {a b : Nat} (ha : a < 256) (hb : b < 256) :
    byteToHex a ++ byteToHex b = toHex4 (256 * a + b) := by
  have hlt : 256 * a + b < 65536 := by omega
  refine hexdigits_inj _ _ ?_ (toHex4_chars _) ?_ ?_
  · intro c hc
    rcases List.mem_append.1 hc with hc | hc
    · exact byteToHex_chars a c hc
    · exact byteToHex_chars b c hc
  · rw [toHex4_length hlt]
    rfl
  · rw [hexStrToNat_append, hexStrToNat_byteToHex ha, hexStrToNat_byteToHex hb,
      hexStrToNat_toHex4]
    unfold byteToHex
    norm_num
    ring

theorem hextetsOf_lt : ∀ (bs : List Nat), (∀ b ∈ bs, b < 256) →
    ∀ h ∈ hextetsOf bs, h < 65536
  | [], _ => by simp [hextetsOf]
  | [b], _ => by simp [hextetsOf]
  | a :: b :: rest, hlt => by
    intro h hh
    unfold hextetsOf at hh
    rcases List.mem_cons.1 hh with rfl | hh
    · have := hlt a (by simp)
      have := hlt b (by simp)
      omega
    · exact hextetsOf_lt rest (fun x hx => hlt x (by simp [hx])) h hh

theorem hextetsOf_length : ∀ (bs : List Nat), (hextetsOf bs).length = bs.length / 2
  | [] => rfl
  | [_] => by simp [hextetsOf]
  | _ :: _ :: rest => by
    unfold hextetsOf
    rw [List.length_cons, hextetsOf_length rest]
    simp only [List.length_cons]
    omega

theorem chunks4_bytesToHex : ∀ (bs : List Nat), (∀ b ∈ bs, b < 256) → bs.length % 2 = 0 →
    chunks4 (bytesToHex bs) = (hextetsOf bs).map toHex4
  | [], _, _ => rfl
  | [_], _, hev => by simp at hev
  | a :: b :: rest, hlt, hev => by
    have ha := hlt a (by simp)
    have hb := hlt b (by simp)
    have hpair := byteToHex_pair ha hb
    have h4 : (byteToHex a ++ byteToHex b).length = 4 := by
      rw [hpair, toHex4_length (by omega)]
    have hshape : bytesToHex (a :: b :: rest) = (byteToHex a ++ byteToHex b) ++ bytesToHex rest := by
      show byteToHex a ++ (byteToHex b ++ bytesToHex rest) = _
      rw [List.append_assoc]
    rcases hx : byteToHex a ++ byteToHex b with _ | ⟨c1, _ | ⟨c2, _ | ⟨c3, _ | ⟨c4, rest4⟩⟩⟩⟩ <;>
      rw [hx] at h4 <;> simp at h4
    subst h4
    rw [hshape, hx]
    show [c1, c2, c3, c4] :: chunks4 (bytesToHex rest) = _
    rw [chunks4_bytesToHex rest (fun x hx' => hlt x (by simp [hx'])) (by simp at hev; omega)]
    show _ = toHex4 (256 * a + b) :: _
    rw [← hpair, hx]

end TsIp

namespace TsIp

theorem joinSep_cons {sep : Char} {b : Str} {B : List Str} (h : B ≠ []) :
    joinSep sep (b :: B) = b ++ sep :: joinSep sep B := by
  cases B with
  | nil => exact absurd rfl h
  | cons b' B' => rfl

theorem zerosRun_one : zerosRun 1 = str "0000" := rfl

theorem zerosRun_succ (L : Nat) (hL : 1 ≤ L) :
    zerosRun (L + 1) = str "0000" ++ ':' :: zerosRun L := by
  unfold zerosRun
  rw [List.replicate_succ]
  exact joinSep_cons (by
    intro h
    have := congrArg List.length h
    simp at this
    omega)

theorem zerosRun_length (L : Nat) : (zerosRun (L + 1)).length = 5 * L + 4 := by
  induction L with
  | zero => rfl
  | succ L ih =>
    rw [zerosRun_succ (L + 1) (by omega), List.length_append, List.length_cons, ih]
    show 4 + (5 * L + 4 + 1) = 5 * (L + 1) + 4
    omega

theorem joinSep_length {B : List Str} (h4 : ∀ b ∈ B, b.length = 4) (hB : B ≠ []) :
    (joinSep ':' B).length = 5 * B.length - 1 := by
  induction B with
  | nil => exact absurd rfl hB
  | cons b B ih =>
    cases B with
    | nil =>
      show b.length = 5 * [b].length - 1
      rw [h4 b (by simp)]
      rfl
    | cons b' B' =>
      rw [joinSep_cons (by simp)]
      rw [List.length_append, List.length_cons, ih (fun x hx => h4 x (by simp [hx])) (by simp)]
      have := h4 b (by simp)
      simp only [List.length_cons]
      omega

end TsIp

namespace TsIp

theorem prefix_head_block {p b t : Str} (hlen : p.length = b.length) :
    (p <+: b ++ t) ↔ p = b := by
  constructor
  · intro h
    exact ((@prefix_append_iff p b [] t hlen).1 (by simpa using h)).1
  · rintro rfl
    exact List.prefix_append _ _

theorem zerosRun_prefix_iff : ∀ (L : Nat) (B : List Str), (∀ b ∈ B, b.length = 4) →
    (isPrefixOfChars (zerosRun (L + 1)) (joinSep ':' B) = true ↔
      B.take (L + 1) = List.replicate (L + 1) (str "0000")) := by
  intro L
  induction L with
  | zero =>
    intro B h4
    cases B with
    | nil =>
      rw [isPrefixOfChars_false_of_length (by simp [joinSep, zerosRun_one, str])]
      simp
    | cons b B' =>
      have hb : b.length = 4 := h4 b (by simp)
      have hiff : (str "0000" <+: joinSep ':' (b :: B')) ↔ b = str "0000" := by
        cases B' with
        | nil =>
          show (str "0000" <+: b) ↔ _
          constructor
          · intro h
            exact (h.eq_of_length (by rw [hb]; rfl)).symm ▸ rfl
          · rintro rfl
            exact List.prefix_refl _
        | cons b2 B'' =>
          rw [joinSep_cons (by simp)]
          exact (@prefix_head_block (str "0000") b (':' :: joinSep ':' (b2 :: B''))
            (by rw [hb]; rfl)).trans eq_comm
      rw [zerosRun_one, isPrefixOfChars_iff, hiff]
      constructor
      · rintro rfl
        rfl
      · intro h
        simpa using congrArg (fun l => l.headD []) h
  | succ L ih =>
    intro B h4
    cases B with
    | nil =>
      rw [isPrefixOfChars_false_of_length
        (by rw [zerosRun_length]; simp [joinSep])]
      constructor
      · rintro ⟨⟩
      · intro h
        have := congrArg List.length h
        simp at this
    | cons b B' =>
      have hb : b.length = 4 := h4 b (by simp)
      cases B' with
      | nil =>
        rw [isPrefixOfChars_false_of_length
          (by rw [zerosRun_length]; show b.length < 5 * (L + 1) + 4; omega)]
        constructor
        · rintro ⟨⟩
        · intro h
          have := congrArg List.length h
          simp at this
      | cons b2 B'' =>
        rw [joinSep_cons (show (b2 :: B'' : List Str) ≠ [] by simp),
          zerosRun_succ (L + 1) (by omega), isPrefixOfChars_iff]
        have hsplit1 : str "0000" ++ ':' :: zerosRun (L + 1)
            = (str "0000" ++ [':']) ++ zerosRun (L + 1) := by
          simp
        have hsplit2 : b ++ ':' :: joinSep ':' (b2 :: B'')
            = (b ++ [':']) ++ joinSep ':' (b2 :: B'') := by
          simp
        rw [hsplit1, hsplit2,
          @prefix_append_iff (str "0000" ++ [':']) (b ++ [':']) (zerosRun (L + 1))
            (joinSep ':' (b2 :: B'')) (by simp [hb]; rfl)]
        rw [← isPrefixOfChars_iff, ih (b2 :: B'') (fun x hx => h4 x (by simp [hx]))]
        constructor
        · rintro ⟨hbz, htake⟩
          have hbz' : b = str "0000" := by
            have := congrArg (fun l => l.dropLast) hbz
            simpa using this.symm
          rw [List.take_succ_cons, List.replicate_succ, hbz', htake]
        · intro h
          rw [List.take_succ_cons, List.replicate_succ] at h
          injection h with h1 h2
          exact ⟨by rw [h1], h2⟩

end TsIp

namespace TsIp

theorem isPrefixOfChars_getD {p s : Str} (h : isPrefixOfChars p s = true)
    {k : Nat} (hk : k < p.length) (d : Char) : p.getD k d = s.getD k d := by
  obtain ⟨t, rfl⟩ := isPrefixOfChars_iff.1 h
  rw [List.getD_append _ _ _ _ hk]

theorem zerosRun_getD {L k : Nat} (hL : 1 ≤ L) (hk : k < 4) (d : Char) :
    (zerosRun L).getD k d = '0' := by
  obtain ⟨L', rfl⟩ : ∃ L', L = L' + 1 := ⟨L - 1, by omega⟩
  have hsh : ∃ rest, zerosRun (L' + 1) = str "0000" ++ rest := by
    cases L' with
    | zero => exact ⟨[], by simp [zerosRun_one]⟩
    | succ L'' => exact ⟨':' :: zerosRun (L'' + 1), zerosRun_succ _ (by omega)⟩
  obtain ⟨rest, hrest⟩ := hsh
  rw [hrest, List.getD_append _ _ _ _ (by interval_cases k <;> simp [str])]
  interval_cases k <;> rfl

theorem occurrence_aligned : ∀ (B : List Str) (q L : Nat),
    (∀ b ∈ B, b.length = 4) → (∀ b ∈ B, ∀ c ∈ b, c ≠ ':') → 1 ≤ L →
    isPrefixOfChars (zerosRun (L + 1)) ((joinSep ':' B).drop q) = true →
    ∃ i, q = 5 * i ∧ (B.drop i).take (L + 1) = List.replicate (L + 1) (str "0000") := by
  intro B
  induction B with
  | nil =>
    intro q L _ _ hL hpre
    rw [show (joinSep ':' ([] : List Str)) = [] from rfl, List.drop_nil,
      isPrefixOfChars_false_of_length (by rw [zerosRun_length]; simp)] at hpre
    cases hpre
  | cons b B' ih =>
    intro q L h4 hcol hL hpre
    have hb : b.length = 4 := h4 b (by simp)
    cases B' with
    | nil =>
      exfalso
      have hlen : ((joinSep ':' [b]).drop q).length ≤ 4 := by
        show (b.drop q).length ≤ 4
        rw [List.length_drop, hb]
        omega
      rw [isPrefixOfChars_false_of_length (by rw [zerosRun_length]; omega)] at hpre
      cases hpre
    | cons b2 B'' =>
      have hjoin : joinSep ':' (b :: b2 :: B'') = (b ++ [':']) ++ joinSep ':' (b2 :: B'') := by
        rw [joinSep_cons (by simp)]
        simp
      rcases Nat.lt_or_ge q 1 with hq | hq
      · obtain rfl : q = 0 := by omega
        refine ⟨0, rfl, ?_⟩
        rw [List.drop_zero]
        rw [List.drop_zero] at hpre
        exact (zerosRun_prefix_iff L (b :: b2 :: B'') h4).1 hpre
      rcases Nat.lt_or_ge q 5 with hq5 | hq5
      · exfalso
        have hdrop : (joinSep ':' (b :: b2 :: B'')).drop q
            = b.drop q ++ ':' :: joinSep ':' (b2 :: B'') := by
          rw [hjoin, List.drop_append_of_le_length (by simp [hb]; omega),
            List.drop_append_of_le_length (by omega)]
          simp
        have hchar := isPrefixOfChars_getD hpre
          (k := 4 - q) (by rw [zerosRun_length]; omega) ' '
        rw [zerosRun_getD (by omega) (by omega), hdrop,
          List.getD_append_right _ _ _ _ (by rw [List.length_drop, hb])] at hchar
        rw [List.length_drop, hb, Nat.sub_self] at hchar
        cases hchar
      · obtain ⟨q', rfl⟩ : ∃ q', q = 5 + q' := ⟨q - 5, by omega⟩
        have hdrop : (joinSep ':' (b :: b2 :: B'')).drop (5 + q')
            = (joinSep ':' (b2 :: B'')).drop q' := by
          rw [hjoin, show (5 : Nat) + q' = (b ++ [':']).length + q' by simp [hb],
            List.drop_append]
        rw [hdrop] at hpre
        obtain ⟨i', hi', hrun⟩ := ih q' L (fun x hx => h4 x (by simp [hx]))
          (fun x hx => hcol x (by simp [hx])) hL hpre
        exact ⟨i' + 1, by omega, by simpa using hrun⟩

theorem run_occurrence : ∀ (i : Nat) (B : List Str) (L : Nat),
    (∀ b ∈ B, b.length = 4) → 1 ≤ L →
    (B.drop i).take L = List.replicate L (str "0000") →
    isPrefixOfChars (zerosRun L) ((joinSep ':' B).drop (5 * i)) = true := by
  intro i
  induction i with
  | zero =>
    intro B L h4 hL hrun
    obtain ⟨L', rfl⟩ : ∃ L', L = L' + 1 := ⟨L - 1, by omega⟩
    rw [Nat.mul_zero, List.drop_zero]
    rw [List.drop_zero] at hrun
    exact (zerosRun_prefix_iff L' B h4).2 hrun
  | succ i ih =>
    intro B L h4 hL hrun
    cases B with
    | nil =>
      exfalso
      rw [List.drop_nil, List.take_nil] at hrun
      have := congrArg List.length hrun
      simp at this
      omega
    | cons b B' =>
      cases B' with
      | nil =>
        exfalso
        rw [show (b :: ([] : List Str)).drop (i + 1) = [] by simp, List.take_nil] at hrun
        have := congrArg List.length hrun
        simp at this
        omega
      | cons b2 B'' =>
        have hb : b.length = 4 := h4 b (by simp)
        have hjoin : joinSep ':' (b :: b2 :: B'') = (b ++ [':']) ++ joinSep ':' (b2 :: B'') := by
          rw [joinSep_cons (by simp)]
          simp
        have hdrop : (joinSep ':' (b :: b2 :: B'')).drop (5 * (i + 1))
            = (joinSep ':' (b2 :: B'')).drop (5 * i) := by
          rw [hjoin, show 5 * (i + 1) = (b ++ [':']).length + 5 * i by simp [hb]; omega,
            List.drop_append]
        rw [hdrop]
        exact ih (b2 :: B'') L (fun x hx => h4 x (by simp [hx])) hL (by simpa using hrun)

end TsIp

namespace TsIp

theorem firstOccur_join_none {B : List Str} {L : Nat}
    (h4 : ∀ b ∈ B, b.length = 4) (hcol : ∀ b ∈ B, ∀ c ∈ b, c ≠ ':') (hL : 2 ≤ L)
    (hno : ∀ i, ¬ (B.drop i).take L = List.replicate L (str "0000")) :
    firstOccur (zerosRun L) (joinSep ':' B) = none := by
  rw [firstOccur_eq_none_iff]
  intro q
  by_contra hne
  have hpre : isPrefixOfChars (zerosRun L) ((joinSep ':' B).drop q) = true := by
    simpa using hne
  obtain ⟨L', rfl⟩ : ∃ L', L = L' + 1 := ⟨L - 1, by omega⟩
  obtain ⟨i, -, hrun⟩ := occurrence_aligned B q L' h4 hcol (by omega) hpre
  exact hno i hrun

theorem firstOccur_join_some {B : List Str} {L i0 : Nat}
    (h4 : ∀ b ∈ B, b.length = 4) (hcol : ∀ b ∈ B, ∀ c ∈ b, c ≠ ':') (hL : 2 ≤ L)
    (hrun : (B.drop i0).take L = List.replicate L (str "0000"))
    (hmin : ∀ j < i0, ¬ (B.drop j).take L = List.replicate L (str "0000")) :
    firstOccur (zerosRun L) (joinSep ':' B) = some (5 * i0) := by
  rw [firstOccur_eq_some_iff]
  refine ⟨run_occurrence i0 B L h4 (by omega) hrun, fun r hr => ?_⟩
  by_contra hne
  have hpre : isPrefixOfChars (zerosRun L) ((joinSep ':' B).drop r) = true := by
    simpa using hne
  obtain ⟨L', rfl⟩ : ∃ L', L = L' + 1 := ⟨L - 1, by omega⟩
  obtain ⟨j, rfl, hrj⟩ := occurrence_aligned B r L' h4 hcol (by omega) hpre
  exact hmin j (by omega) hrj

theorem compressLoop_descend : ∀ (K : Nat) (s : Str) (M : Nat), 2 ≤ M → M ≤ K →
    (∀ L, M < L → L ≤ K → firstOccur (zerosRun L) s = none) →
    compressLoop s K = compressLoop s M
  | 0, _, M, h2, hK, _ => by omega
  | 1, _, M, h2, hK, _ => by omega
  | K + 2, s, M, h2, hK, hnone => by
    rcases Nat.eq_or_lt_of_le hK with heq | hlt
    · rw [heq]
    · show (if (firstOccur (zerosRun (K + 2)) s).isSome = true then _ else _) = _
      rw [hnone (K + 2) hlt (le_refl _)]
      rw [if_neg (by simp)]
      exact compressLoop_descend (K + 1) s M h2 (by omega)
        (fun L hM hLK => hnone L hM (by omega))

theorem compressLoop_nomatch : ∀ (K : Nat) (s : Str),
    (∀ L, 2 ≤ L → L ≤ K → firstOccur (zerosRun L) s = none) →
    compressLoop s K = s
  | 0, _, _ => rfl
  | 1, _, _ => rfl
  | K + 2, s, hnone => by
    show (if (firstOccur (zerosRun (K + 2)) s).isSome = true then _ else _) = _
    rw [hnone (K + 2) (by omega) (le_refl _)]
    rw [if_neg (by simp)]
    exact compressLoop_nomatch (K + 1) s (fun L h2 hK => hnone L h2 (by omega))

theorem compressLoop_hit {s : Str} {M q : Nat} (hM : 2 ≤ M)
    (hsome : firstOccur (zerosRun M) s = some q) :
    compressLoop s M = s.take q ++ s.drop (q + (zerosRun M).length) := by
  obtain ⟨L, rfl⟩ : ∃ L, M = L + 2 := ⟨M - 2, by omega⟩
  show (if (firstOccur (zerosRun (L + 2)) s).isSome = true then
    replaceOnce (zerosRun (L + 2)) s else compressLoop s (L + 1)) = _
  rw [hsome]
  simp only [Option.isSome_some, if_true]
  unfold replaceOnce
  rw [hsome]

theorem joinSep_take_boundary : ∀ (i : Nat) (B : List Str),
    (∀ b ∈ B, b.length = 4) → 1 ≤ i → i < B.length →
    (joinSep ':' B).take (5 * i) = joinSep ':' (B.take i) ++ [':'] := by
  intro i
  induction i with
  | zero => omega
  | succ i' ih =>
    intro B h4 _ hin
    cases B with
    | nil => simp at hin
    | cons b B' =>
      have hb : b.length = 4 := h4 b (by simp)
      have hB' : B' ≠ [] := by
        intro h
        rw [h] at hin
        simp at hin
      have hjoin : joinSep ':' (b :: B') = (b ++ [':']) ++ joinSep ':' B' := by
        rw [joinSep_cons hB']
        simp
      cases Nat.eq_zero_or_pos i' with
      | inl h0 =>
        subst h0
        rw [hjoin, show 5 * 1 = (b ++ [':']).length + 0 by simp [hb], List.take_append]
        simp [joinSep]
      | inr hpos =>
        have hin' : i' < B'.length := by
          have hlen : (b :: B').length = B'.length + 1 := rfl
          omega
        rw [hjoin, show 5 * (i' + 1) = (b ++ [':']).length + 5 * i' by simp [hb]; omega,
          List.take_append, ih B' (fun x hx => h4 x (by simp [hx])) hpos hin']
        have htake : (b :: B').take (i' + 1) = b :: B'.take i' := List.take_succ_cons
        have htkne : B'.take i' ≠ [] := by
          intro h
          rcases List.take_eq_nil_iff.1 h with h' | h' <;>
            first
            | exact hB' h'
            | omega
        rw [htake, joinSep_cons htkne]
        simp

theorem joinSep_drop_boundary : ∀ (j : Nat) (B : List Str),
    (∀ b ∈ B, b.length = 4) → 1 ≤ j → j < B.length →
    (joinSep ':' B).drop (5 * j - 1) = ':' :: joinSep ':' (B.drop j) := by
  intro j
  induction j with
  | zero => omega
  | succ j' ih =>
    intro B h4 _ hjn
    cases B with
    | nil => simp at hjn
    | cons b B' =>
      have hb : b.length = 4 := h4 b (by simp)
      have hB' : B' ≠ [] := by
        intro h
        rw [h] at hjn
        simp at hjn
      have hjoin : joinSep ':' (b :: B') = (b ++ [':']) ++ joinSep ':' B' := by
        rw [joinSep_cons hB']
        simp
      cases Nat.eq_zero_or_pos j' with
      | inl h0 =>
        subst h0
        rw [joinSep_cons hB', show 5 * 1 - 1 = b.length by omega]
        rw [List.drop_append_of_le_length (by omega), List.drop_length]
        simp
      | inr hpos =>
        have hjn' : j' < B'.length := by
          have hlen : (b :: B').length = B'.length + 1 := rfl
          omega
        rw [hjoin, show 5 * (j' + 1) - 1 = (b ++ [':']).length + (5 * j' - 1) by
            simp [hb]; omega,
          List.drop_append, ih B' (fun x hx => h4 x (by simp [hx])) hpos hjn']
        rfl

theorem joinSep_drop_all {B : List Str} (h4 : ∀ b ∈ B, b.length = 4) :
    (joinSep ':' B).drop (5 * B.length - 1) = [] := by
  cases B with
  | nil => simp [joinSep]
  | cons b B' =>
    apply List.drop_eq_nil_of_le
    rw [joinSep_length h4 (by simp)]

end TsIp

namespace TsIp

theorem zeroRunAt_le_length {hx : List Nat} {i L : Nat} (hL : 1 ≤ L)
    (h : zeroRunAt hx i L) : i + L ≤ hx.length := by
  unfold zeroRunAt at h
  have hlen := congrArg List.length h
  rw [List.length_take, List.length_drop, List.length_replicate] at hlen
  omega

theorem hasZeroRun_iff {hx : List Nat} {L : Nat} :
    hasZeroRun hx L = true ↔ ∃ i, zeroRunAt hx i L := by
  unfold hasZeroRun
  rw [List.any_eq_true]
  constructor
  · rintro ⟨i, -, hi⟩
    exact ⟨i, of_decide_eq_true hi⟩
  · rintro ⟨i, hi⟩
    cases Nat.eq_zero_or_pos L with
    | inl h0 =>
      subst h0
      exact ⟨0, List.mem_range.2 (by omega), decide_eq_true (by rfl)⟩
    | inr hpos =>
      have := zeroRunAt_le_length hpos hi
      exact ⟨i, List.mem_range.2 (by omega), decide_eq_true hi⟩

theorem run_le_maxZeroRun {hx : List Nat} {i L : Nat} (hL : 1 ≤ L)
    (h : zeroRunAt hx i L) : L ≤ maxZeroRun hx :=
  Nat.le_findGreatest (by have := zeroRunAt_le_length hL h; omega)
    (hasZeroRun_iff.2 ⟨i, h⟩)

theorem maxZeroRun_le (hx : List Nat) : maxZeroRun hx ≤ hx.length :=
  Nat.findGreatest_le _

theorem maxZeroRun_run {hx : List Nat} (h2 : 2 ≤ maxZeroRun hx) :
    ∃ i, zeroRunAt hx i (maxZeroRun hx) := by
  have h0 : maxZeroRun hx ≠ 0 := by omega
  exact hasZeroRun_iff.1 (Nat.findGreatest_of_ne_zero rfl h0)

theorem find?_range_least {k : Nat} {p : Nat → Bool} {a : Nat}
    (h : (List.range k).find? p = some a) : p a = true ∧ ∀ b < a, p b = false := by
  induction k with
  | zero => simp [List.range_zero] at h
  | succ k ih =>
    rw [List.range_succ, List.find?_append] at h
    cases hf : (List.range k).find? p with
    | some a' =>
      rw [hf] at h
      obtain rfl : a' = a := by simpa using h
      exact ih hf
    | none =>
      rw [hf, Option.none_or] at h
      have hall := List.find?_eq_none.1 hf
      by_cases hp : p k = true
      · simp only [List.find?, hp] at h
        injection h with h
        subst h
        refine ⟨hp, fun b hb => ?_⟩
        have := hall b (List.mem_range.2 hb)
        simpa using this
      · simp only [List.find?, Bool.not_eq_true] at h hp
        rw [hp] at h
        cases h

theorem leftmostRunStart_spec {hx : List Nat} {L : Nat}
    (hL : 1 ≤ L) (h : ∃ i, zeroRunAt hx i L) :
    zeroRunAt hx (leftmostRunStart hx L) L
      ∧ ∀ j < leftmostRunStart hx L, ¬ zeroRunAt hx j L := by
  obtain ⟨i, hi⟩ := h
  have hmem : i < hx.length + 1 := by
    have := zeroRunAt_le_length hL hi
    omega
  cases hf : (List.range (hx.length + 1)).find? (fun i => decide (zeroRunAt hx i L)) with
  | none =>
    exfalso
    have := List.find?_eq_none.1 hf i (List.mem_range.2 hmem)
    simp only [decide_eq_true_eq] at this
    exact this hi
  | some a =>
    have hls : leftmostRunStart hx L = a := by
      unfold leftmostRunStart
      rw [hf]
      rfl
    obtain ⟨hpa, hmin⟩ := find?_range_least hf
    rw [hls]
    refine ⟨of_decide_eq_true hpa, fun j hj hrun => ?_⟩
    have := hmin j hj
    rw [decide_eq_true hrun] at this
    cases this

theorem blocks_run_iff {hx : List Nat} {i L : Nat} :
    ((hx.map toHex4).drop i).take L = List.replicate L (str "0000") ↔ zeroRunAt hx i L := by
  unfold zeroRunAt
  rw [← List.map_drop, ← List.map_take, ← toHex4_zero, ← List.map_replicate]
  constructor
  · intro h
    exact List.map_injective_iff.2 toHex4_injective h
  · intro h
    rw [h]

theorem blocks_h4 {hx : List Nat} (hlt : ∀ h ∈ hx, h < 65536) :
    ∀ b ∈ hx.map toHex4, b.length = 4 := by
  intro b hb
  obtain ⟨h, hh, rfl⟩ := List.mem_map.1 hb
  exact toHex4_length (hlt h hh)

theorem blocks_hcol {hx : List Nat} :
    ∀ b ∈ hx.map toHex4, ∀ c ∈ b, c ≠ ':' := by
  intro b hb
  obtain ⟨h, hh, rfl⟩ := List.mem_map.1 hb
  exact toHex4_ne_colon h

end TsIp

namespace TsIp

theorem compressV6_spec {hx : List Nat} (hlen8 : hx.length = 8)
    (hlt : ∀ h ∈ hx, h < 65536) :
    (2 ≤ maxZeroRun hx →
      compressV6 (joinSep ':' (hx.map toHex4))
        = compressFinish (elideRun (hx.map toHex4)
            (leftmostRunStart hx (maxZeroRun hx)) (maxZeroRun hx)))
    ∧ (maxZeroRun hx < 2 →
      compressV6 (joinSep ':' (hx.map toHex4))
        = compressFinish (joinSep ':' (hx.map toHex4))) := by
  have h4 := blocks_h4 hlt
  have hcol := @blocks_hcol hx
  have hBlen : (hx.map toHex4).length = 8 := by rw [List.length_map, hlen8]
  constructor
  · intro hM2
    obtain ⟨hrun0, hmin0⟩ := leftmostRunStart_spec (by omega) (maxZeroRun_run hM2)
    have hi0M : leftmostRunStart hx (maxZeroRun hx) + maxZeroRun hx ≤ 8 := by
      have := zeroRunAt_le_length (by omega) hrun0
      omega
    have hMle : maxZeroRun hx ≤ 8 := by
      have := maxZeroRun_le hx
      omega
    have hfo : firstOccur (zerosRun (maxZeroRun hx)) (joinSep ':' (hx.map toHex4))
        = some (5 * leftmostRunStart hx (maxZeroRun hx)) :=
      firstOccur_join_some h4 hcol hM2 (blocks_run_iff.2 hrun0)
        (fun j hj hrj => hmin0 j hj (blocks_run_iff.1 hrj))
    have hnone : ∀ L, maxZeroRun hx < L → L ≤ 8 →
        firstOccur (zerosRun L) (joinSep ':' (hx.map toHex4)) = none := by
      intro L hML _
      refine firstOccur_join_none h4 hcol (by omega) (fun i hrun => ?_)
      have := run_le_maxZeroRun (by omega) (blocks_run_iff.1 hrun)
      omega
    unfold compressV6
    rw [compressLoop_descend 8 _ (maxZeroRun hx) hM2 hMle hnone, compressLoop_hit hM2 hfo]
    congr 1
    unfold elideRun
    have hzlen : (zerosRun (maxZeroRun hx)).length = 5 * maxZeroRun hx - 1 := by
      obtain ⟨M', hM'⟩ : ∃ M', maxZeroRun hx = M' + 1 := ⟨maxZeroRun hx - 1, by omega⟩
      rw [hM', zerosRun_length]
      omega
    rw [hzlen,
      show 5 * leftmostRunStart hx (maxZeroRun hx) + (5 * maxZeroRun hx - 1)
        = 5 * (leftmostRunStart hx (maxZeroRun hx) + maxZeroRun hx) - 1 by omega]
    congr 1
    · rcases Nat.eq_zero_or_pos (leftmostRunStart hx (maxZeroRun hx)) with h0 | hpos
      · rw [h0]
        simp
      · rw [if_neg (by omega)]
        exact joinSep_take_boundary _ _ h4 hpos (by omega)
    · rcases Nat.eq_or_lt_of_le hi0M with heq | hlt8
      · rw [if_pos (by omega)]
        rw [show 5 * (leftmostRunStart hx (maxZeroRun hx) + maxZeroRun hx) - 1
          = 5 * (hx.map toHex4).length - 1 by omega]
        exact joinSep_drop_all h4
      · rw [if_neg (by omega)]
        exact joinSep_drop_boundary _ _ h4 (by omega) (by omega)
  · intro hM2
    unfold compressV6
    rw [compressLoop_nomatch 8 _ (fun L h2 _ => firstOccur_join_none h4 hcol h2
      (fun i hrun => by
        have := run_le_maxZeroRun (by omega) (blocks_run_iff.1 hrun)
        omega))]

end TsIp

namespace TsIp

theorem v6ToString_default {bs : List Nat} (hlen : bs.length = 16)
    (hlt : ∀ b ∈ bs, b < 256) :
    v6ToString bs false
      = some (compressV6 (joinSep ':' ((hextetsOf bs).map toHex4))) := by
  unfold v6ToString
  rw [chunks4_bytesToHex bs hlt (by omega)]
  rw [if_neg (by
    intro h
    have := congrArg List.length h
    rw [List.length_map, hextetsOf_length, hlen] at this
    simp at this)]
  rfl

/-- C7: in the default style, the elided zero-run of an IPv6 Address is the
longest run of consecutive all-zero hextets (only runs of length 2 through
8 are elided at all), and among equal-length runs the leftmost one: for
every 16-octet buffer, `v6ToString` equals the rendering in which exactly
the hextet blocks `leftmostRunStart .. + maxZeroRun` have been deleted
from the colon-joined hextet text (`elideRun`), and when no run of length
at least 2 exists nothing is deleted; in particular
`format(parse("2607:f8b0:4009:805:0:0:0:200e")) = "2607:f8b0:4009:805::200e"`. -/
theorem claim_C7 :
    (∀ bs : List Nat, bs.length = 16 → (∀ b ∈ bs, b < 256) →
      (2 ≤ maxZeroRun (hextetsOf bs) →
        v6ToString bs false = some (compressFinish (elideRun ((hextetsOf bs).map toHex4)
          (leftmostRunStart (hextetsOf bs) (maxZeroRun (hextetsOf bs)))
          (maxZeroRun (hextetsOf bs)))))
      ∧ (maxZeroRun (hextetsOf bs) < 2 →
        v6ToString bs false = some (compressFinish (joinSep ':' ((hextetsOf bs).map toHex4)))))
    ∧ ((parse (str "2607:f8b0:4009:805:0:0:0:200e")).bind fun ip => ip.jsToString none)
        = some (str "2607:f8b0:4009:805::200e") := by
  refine ⟨?_, rfl⟩
  intro bs hlen hlt
  have hhx8 : (hextetsOf bs).length = 8 := by rw [hextetsOf_length, hlen]
  have hhxlt := hextetsOf_lt bs hlt
  have hspec := compressV6_spec hhx8 hhxlt
  have hdef := v6ToString_default hlen hlt
  constructor
  · intro h
    rw [hdef, hspec.1 h]
  · intro h
    rw [hdef, hspec.2 h]

/-- C7 witness: the run-selection law discharged at the concrete buffer of
`2607:f8b0:4009:805:0:0:0:200e` (longest zero-run of length 3 at hextet
index 4), with the rendering evaluated on both sides. -/
theorem claim_C7_witness :
    (([0x26, 0x07, 0xf8, 0xb0, 0x40, 0x09, 0x08, 0x05,
        0, 0, 0, 0, 0, 0, 0x20, 0x0e] : List Nat).length = 16
      ∧ (∀ b ∈ ([0x26, 0x07, 0xf8, 0xb0, 0x40, 0x09, 0x08, 0x05,
          0, 0, 0, 0, 0, 0, 0x20, 0x0e] : List Nat), b < 256)
      ∧ 2 ≤ maxZeroRun (hextetsOf [0x26, 0x07, 0xf8, 0xb0, 0x40, 0x09, 0x08, 0x05,
          0, 0, 0, 0, 0, 0, 0x20, 0x0e]))
    ∧ v6ToString [0x26, 0x07, 0xf8, 0xb0, 0x40, 0x09, 0x08, 0x05,
        0, 0, 0, 0, 0, 0, 0x20, 0x0e] false
      = some (compressFinish (elideRun
          ((hextetsOf [0x26, 0x07, 0xf8, 0xb0, 0x40, 0x09, 0x08, 0x05,
            0, 0, 0, 0, 0, 0, 0x20, 0x0e]).map toHex4)
          (leftmostRunStart (hextetsOf [0x26, 0x07, 0xf8, 0xb0, 0x40, 0x09, 0x08, 0x05,
            0, 0, 0, 0, 0, 0, 0x20, 0x0e])
            (maxZeroRun (hextetsOf [0x26, 0x07, 0xf8, 0xb0, 0x40, 0x09, 0x08, 0x05,
              0, 0, 0, 0, 0, 0, 0x20, 0x0e])))
          (maxZeroRun (hextetsOf [0x26, 0x07, 0xf8, 0xb0, 0x40, 0x09, 0x08, 0x05,
            0, 0, 0, 0, 0, 0, 0x20, 0x0e])))) :=
  ⟨⟨rfl, by decide, by decide⟩,
    (claim_C7.1 [0x26, 0x07, 0xf8, 0xb0, 0x40, 0x09, 0x08, 0x05,
      0, 0, 0, 0, 0, 0, 0x20, 0x0e] rfl (by decide)).1 (by decide)⟩

end TsIp
